import Mathlib

/-!
Verification development for the duplicate-image detection pipeline
(`src-tauri/src` of the delo repository).

The Rust sources are shallowly embedded:

* fingerprints are `String`s (the Rust code only ever stores ASCII hex,
  ASCII binary, or Base64 fingerprints);
* machine integers are `Nat` with explicit `% 2 ^ w` at the wrapping
  operations (`u64` bucket keys, `u8` pixel arithmetic);
* `f32` similarity scores are modelled with `ℚ`: every score computed by
  the code is of the form `100 * (1 - d / len)` or `100 * m / t` with
  small integer numerators and denominators, and every comparison made
  with them is against integer thresholds, so rational arithmetic is
  exact for all the facts proved here (exactness arguments are recorded
  at the relevant definitions);
* file-system effects (directory enumeration, image decoding, metadata)
  are parameters of the embedded pipeline: the decoding outcome of each
  image is an input, and file metadata is an oracle function.

Rust `sort_by` is a stable sort; a stable sort of a list under a total
transitive comparator is a unique function of the list, so it is embedded
as `List.insertionSort` (also stable).  `sort_unstable_by` is only applied
by the code either to lists without ties or at places whose results are
provably tie-independent; it is embedded the same way.
-/

/-! ## Small helpers: bytes, wrapping arithmetic, bit counting -/

/-- Number of set bits among the low 8 bits, i.e. `u8::count_ones` for
byte values. -/
def countOnes8 (n : ℕ) : ℕ :=
  (List.range 8).countP (fun i => n.testBit i)

/-- Little-endian byte encoding of a `u32` value (`u32::to_le_bytes`). -/
def u32ToLeBytes (n : ℕ) : List ℕ :=
  [n % 256, n / 256 % 256, n / 65536 % 256, n / 16777216 % 256]

/-- Little-endian byte decoding of a `u32` value (`u32::from_le_bytes`). -/
def u32FromLeBytes (b0 b1 b2 b3 : ℕ) : ℕ :=
  b0 + 256 * b1 + 65536 * b2 + 16777216 * b3

/-! ## Base64 (RFC 4648, standard alphabet with padding)

The Rust code calls `base64::engine::general_purpose::STANDARD`, an
external crate.  Modelled from the spec: "Base64 is RFC 4648 standard
(with padding)". -/

/-- The standard Base64 alphabet. -/
def b64Alphabet : List Char :=
  "ABCDEFGHIJKLMNOPQRSTUVWXYZabcdefghijklmnopqrstuvwxyz0123456789+/".data

/-- Character for a 6-bit group. -/
def b64Char (n : ℕ) : Char := b64Alphabet.getD n 'A'

/-- Index of a character in the Base64 alphabet, `none` for characters
outside the alphabet (in particular for the padding character). -/
def b64Index (c : Char) : Option ℕ := b64Alphabet.indexOf? c

/-- RFC 4648 encoding of a byte list, processed in 3-byte groups with
padding on the final partial group. -/
def b64Encode : List ℕ → List Char
  | [] => []
  | [b0] => [b64Char (b0 / 4), b64Char (b0 % 4 * 16), '=', '=']
  | [b0, b1] => [b64Char (b0 / 4), b64Char (b0 % 4 * 16 + b1 / 16),
      b64Char (b1 % 16 * 4), '=']
  | b0 :: b1 :: b2 :: rest =>
      b64Char (b0 / 4) :: b64Char (b0 % 4 * 16 + b1 / 16) ::
      b64Char (b1 % 16 * 4 + b2 / 64) :: b64Char (b2 % 64) ::
      b64Encode rest

/-- RFC 4648 decoding: 4-character groups, canonical padding allowed
only in the final group, `none` on any malformed input (a padding
character elsewhere is outside the alphabet and fails `b64Index`). -/
def b64Decode : List Char → Option (List ℕ)
  | [] => some []
  | c0 :: c1 :: c2 :: c3 :: rest =>
      if rest = [] ∧ c2 = '=' ∧ c3 = '=' then
        (b64Index c0).bind fun s0 => (b64Index c1).bind fun s1 =>
          if s1 % 16 = 0 then some [s0 * 4 + s1 / 16] else none
      else if rest = [] ∧ c3 = '=' then
        (b64Index c0).bind fun s0 => (b64Index c1).bind fun s1 =>
          (b64Index c2).bind fun s2 =>
            if s2 % 4 = 0 then
              some [s0 * 4 + s1 / 16, s1 % 16 * 16 + s2 / 4]
            else none
      else
        (b64Index c0).bind fun s0 => (b64Index c1).bind fun s1 =>
          (b64Index c2).bind fun s2 => (b64Index c3).bind fun s3 =>
            (b64Decode rest).bind fun tail =>
              some ((s0 * 4 + s1 / 16) :: (s1 % 16 * 16 + s2 / 4) ::
                (s2 % 4 * 64 + s3) :: tail)
  | _ => none

/-! ## Hamming distance and bit-hash similarity
(`core/utils/mod.rs`) -/

/-- `hamming_distance`: positions at which two strings differ, over the
zip of their character sequences. -/
def hamming_distance (hash1 hash2 : String) : ℕ :=
  ((hash1.data.zip hash2.data).filter (fun p => p.1 ≠ p.2)).length

/-- `hash_similarity`: `100 * (1 - dist / len hash1)` as computed over
`f32` in the source.  For the 64-character fingerprints this code is
applied to, every intermediate `f32` value (`d / 64`, `1 - d / 64`,
`100 * (1 - d / 64) = 25 * d4 / 16`) is exactly representable, so the
rational value is the exact score.  (At `hash1 = ""` the `f32` code
produces NaN; all theorems below that touch this function carry a
positive-length hypothesis, matching the 64-character fingerprint
format.) -/
def hash_similarity (hash1 hash2 : String) : ℚ :=
  100 * (1 - (hamming_distance hash1 hash2 : ℚ) / (hash1.length : ℚ))

/-! ## Algorithm tag and fingerprint records (`core/types.rs`) -/

/-- The `HashAlgorithm` enum. -/
inductive HashAlgorithm where
  | exact
  | average
  | difference
  | perceptual
  | orb
deriving DecidableEq, Repr

/-- The `HashResult` struct: fingerprint plus original dimensions. -/
structure HashResult where
  hash : String
  width : ℕ
  height : ℕ
deriving DecidableEq, Repr, Inhabited

/-! ## ORB feature codec and matching (`algorithms/orb.rs`)

A `Descriptor` holds two `u32` coordinates, the `f32` angle, and the
32-byte descriptor.  The codec only ever moves the angle through
`f32::to_le_bytes` / `f32::from_le_bytes`, which are mutually inverse
on bit patterns, so the angle is embedded as its 32-bit pattern. -/

/-- The `Descriptor` struct of `orb.rs`.  `x`, `y`, `angle` are `u32`
bit patterns (`< 2 ^ 32`), `data` the 32 descriptor bytes (`< 256`). -/
structure Descriptor where
  x : ℕ
  y : ℕ
  angle : ℕ
  data : List ℕ
deriving DecidableEq, Repr, Inhabited

/-- Well-formedness corresponding to the Rust types: `u32` fields and a
`[u8; 32]` payload. -/
def Descriptor.WF (d : Descriptor) : Prop :=
  d.x < 2 ^ 32 ∧ d.y < 2 ^ 32 ∧ d.angle < 2 ^ 32 ∧
    d.data.length = 32 ∧ ∀ b ∈ d.data, b < 256

instance (d : Descriptor) : Decidable d.WF := by
  unfold Descriptor.WF; infer_instance

/-- Byte image of one descriptor record: `x`, `y`, `angle`
little-endian, then the 32 data bytes. -/
def descriptorBytes (d : Descriptor) : List ℕ :=
  u32ToLeBytes d.x ++ u32ToLeBytes d.y ++ u32ToLeBytes d.angle ++ d.data

/-- `serialize_features`: `count = min (len, 50)` little-endian, then
the first `count` records, Base64-encoded. -/
def serialize_features (descriptors : List Descriptor) : String :=
  let count := min descriptors.length 50
  let data := u32ToLeBytes count ++
    ((descriptors.take count).map descriptorBytes).flatten
  String.mk (b64Encode data)

/-- Record-parsing loop of `deserialize_features`.  The source reads
record `i` at absolute offset `4 + i * 44`; consuming 44 bytes per
record from the front is the same access pattern. -/
def parseDescriptors : ℕ → List ℕ → List Descriptor
  | 0, _ => []
  | n + 1, l =>
      { x := u32FromLeBytes (l.getD 0 0) (l.getD 1 0) (l.getD 2 0) (l.getD 3 0)
        y := u32FromLeBytes (l.getD 4 0) (l.getD 5 0) (l.getD 6 0) (l.getD 7 0)
        angle := u32FromLeBytes (l.getD 8 0) (l.getD 9 0) (l.getD 10 0) (l.getD 11 0)
        data := (l.drop 12).take 32 } :: parseDescriptors n (l.drop 44)

/-- `deserialize_features`: header length check, count consistency
check, then the record-parsing loop. -/
def deserialize_features (data : List ℕ) : Except String (List Descriptor) :=
  if data.length < 4 then .error "invalid feature data format"
  else
    let count := u32FromLeBytes (data.getD 0 0) (data.getD 1 0)
      (data.getD 2 0) (data.getD 3 0)
    if data.length < 4 + count * 44 then .error "feature data truncated"
    else .ok (parseDescriptors count (data.drop 4))

/-- `compute_hamming_distance` on two 32-byte descriptors: sum of bit
counts of bytewise xor (the source splits the arrays into chunks of 8
before summing, which does not change the sum). -/
def compute_hamming_distance (a b : List ℕ) : ℕ :=
  ((a.zip b).map (fun p => countOnes8 (p.1 ^^^ p.2))).sum

/-- `u32::MAX`, the initial best/second-best distance. -/
def u32Max : ℕ := 2 ^ 32 - 1

/-- One step of the best/second-best scan of `match_descriptors`:
state is `(best_distance, second_best, best_idx)`. -/
def bestScanStep (st : ℕ × ℕ × ℕ) (jd : ℕ × ℕ) : ℕ × ℕ × ℕ :=
  if jd.2 < st.1 then (jd.2, st.1, jd.1)
  else if jd.2 < st.2.1 then (st.1, jd.2, st.2.2)
  else st

/-- Best/second-best scan over the enumerated distance row. -/
def bestScan (distances : List ℕ) : ℕ × ℕ × ℕ :=
  distances.enum.foldl bestScanStep (u32Max, u32Max, 0)

/-- Lowe ratio test of `match_descriptors`.  The source computes
`best as f32 / second as f32 < 0.8`; actual distances are at most 256,
and no rational `b / s` with `s ≤ 2 ^ 32` lies strictly between `4 / 5`
and the `f32` nearest to `0.8` closely enough to flip the comparison
after correct rounding, so the exact rational test agrees. -/
def loweAccept (best second : ℕ) : Bool :=
  best < 80 &&
    (if second = u32Max then (0 : ℚ) else (best : ℚ) / (second : ℚ)) < 4 / 5

/-- Squared spatial distance between the keypoints of two descriptors
(integer coordinate differences). -/
def keypointDistSq (a b : Descriptor) : ℤ :=
  ((a.x : ℤ) - b.x) ^ 2 + ((a.y : ℤ) - b.y) ^ 2

/-- Consistency test between two matched pairs, in squared form.  The
source computes `f32` square roots and tests `dist1 > 0.1`,
`dist2 > 0.1` and `max / min < 1.5`; on integer squared distances these
are exactly `dSq ≥ 1` and `4 * max < 9 * min`. -/
def pairConsistent (dSq1 dSq2 : ℤ) : Bool :=
  1 ≤ dSq1 && 1 ≤ dSq2 && 4 * max dSq1 dSq2 < 9 * min dSq1 dSq2

/-- `filter_matches_by_distance_consistency`: keep a match iff at least
`matches.len() / 4` other matched pairs move by a consistent distance ratio.
The source stops counting once the quota is reached, which does not
change the comparison's outcome. -/
def filter_matches_by_distance_consistency (matchList : List (ℕ × ℕ))
    (descriptors1 descriptors2 : List Descriptor) : List (ℕ × ℕ) :=
  if matchList.length < 4 then matchList
  else
    let minConsistent := matchList.length / 4
    (matchList.enum.filter (fun im =>
      minConsistent ≤ (matchList.enum.countP (fun jm =>
        jm.1 ≠ im.1 &&
          pairConsistent
            (keypointDistSq (descriptors1.getD im.2.1 default)
              (descriptors1.getD jm.2.1 default))
            (keypointDistSq (descriptors2.getD im.2.2 default)
              (descriptors2.getD jm.2.2 default)))))).map (·.2)

/-- `match_descriptors`: full distance matrix, best/second-best per
query descriptor, Lowe ratio test, then the geometric-consistency
filter when more than 10 matched pairs survive. -/
def match_descriptors (descriptors1 descriptors2 : List Descriptor) :
    List (ℕ × ℕ) :=
  let rows := descriptors1.map (fun d1 =>
    descriptors2.map (fun d2 => compute_hamming_distance d1.data d2.data))
  let matchList := (rows.enum.filterMap (fun ir =>
    let st := bestScan ir.2
    if loweAccept st.1 st.2.1 then some (ir.1, st.2.2) else none))
  if 10 < matchList.length then
    filter_matches_by_distance_consistency matchList descriptors1 descriptors2
  else matchList

/-- Scoring tail of `calculate_orb_similarity` on the two decoded
descriptor lists: `(match_count / min) * 100`, or 0 when the shorter
side is empty. -/
def orbScoreOfDescriptors (descriptors1 descriptors2 : List Descriptor) : ℚ :=
  let matchList := match_descriptors descriptors1 descriptors2
  let total := min descriptors1.length descriptors2.length
  if total = 0 then 0
  else ((matchList.length : ℚ) / (total : ℚ)) * 100

/-- `calculate_orb_similarity`: decode both Base64 payloads,
deserialize, match, and score. -/
def calculate_orb_similarity (features1 features2 : String) :
    Except String ℚ := do
  let data1 ← (b64Decode features1.data).elim
    (Except.error "failed to decode features 1") .ok
  let data2 ← (b64Decode features2.data).elim
    (Except.error "failed to decode features 2") .ok
  let descriptors1 ← deserialize_features data1
  let descriptors2 ← deserialize_features data2
  pure (orbScoreOfDescriptors descriptors1 descriptors2)

/-- `calculate_similarity` of `algorithms/mod.rs`: equality for Exact,
Hamming score for the bit hashes, ORB matching with errors mapped to 0
for ORB. -/
def calculate_similarity (hash1 hash2 : String)
    (algorithm : HashAlgorithm) : ℚ :=
  match algorithm with
  | .exact => if hash1 = hash2 then 100 else 0
  | .average | .difference | .perceptual => hash_similarity hash1 hash2
  | .orb => (calculate_orb_similarity hash1 hash2).toOption.getD 0

/-! ## Perceptual-hash thresholding (`algorithms/perceptual_hash.rs`)

`calculate_phash_from_image` resizes, converts to a float matrix and
runs the 2-D DCT (all `f64`), then thresholds the top-left 8x8 block of
coefficients.  The thresholding stage performs no arithmetic at all --
only comparisons, sorting and selection -- so it is embedded exactly
over `ℚ` coefficient matrices; the DCT itself stays outside the
embedding (floating point). -/

/-- Row-major list of the 64 positions of the 8x8 block. -/
def phashPositions : List (ℕ × ℕ) :=
  (List.range 8).flatMap (fun y => (List.range 8).map (fun x => (y, x)))

/-- Coefficient at a position of the DCT matrix (`dct_matrix[y][x]`). -/
def dctAt (dct : List (List ℚ)) (p : ℕ × ℕ) : ℚ :=
  (dct.getD p.1 []).getD p.2 0

/-- The `low_freq` vector of `calculate_phash_from_image`: the loop
walks the 8x8 block row-major, skips the DC position `[0,0]`, and
pushes `(coefficient, i)` where `i` counts pushed entries -- i.e. the
enumeration of the 63 non-DC coefficients with components swapped. -/
def phashLowFreq (dct : List (List ℚ)) : List (ℚ × ℕ) :=
  ((phashPositions.filter (fun p => !(p.1 == 0 && p.2 == 0))).map
    (dctAt dct)).enum.map (fun p => (p.2, p.1))

/-- Sorting relation on `(value, index)` pairs used by the source's
`sort_unstable_by` on the first component; any tie order yields the
same hash, see `calculate_phash_from_dct`. -/
def byFstLe (a b : ℚ × ℕ) : Prop := a.1 ≤ b.1

instance : DecidableRel byFstLe := by
  unfold byFstLe; infer_instance

/-- Thresholding stage of `calculate_phash_from_image`: sort the 63
`(value, index)` pairs by value, take the entry at `len / 2` as the
median, set bit `idx` for every pair with `value > median`, and print
64 bits.  The imperative bit loop only ever sets bits to true at
pairwise distinct indices, so bit `i` is true exactly when some pair
`(v, i)` with `v > median` occurs in the sorted vector. -/
def calculate_phash_from_dct (dct : List (List ℚ)) : String :=
  let lowFreq := phashLowFreq dct
  let sorted := List.insertionSort byFstLe lowFreq
  let median := (sorted.getD (lowFreq.length / 2) (0, 0)).1
  String.mk ((List.range 64).map (fun i =>
    if sorted.any (fun vi => vi.2 == i && decide (median < vi.1))
    then '1' else '0'))

/-- The hash described by the specification sentence for C4: all 64
coefficients including DC, thresholded against the median of the 64
(mean of the two middle elements for the even count, per the spec's
median definition), bit `i` set iff coefficient `i` exceeds it. -/
def phashSpecFromDct (dct : List (List ℚ)) : String :=
  let coeffs := phashPositions.map (dctAt dct)
  let sortedVals := List.insertionSort (· ≤ ·) coeffs
  let median := (sortedVals.getD 31 0 + sortedVals.getD 32 0) / 2
  String.mk ((List.range 64).map (fun i =>
    if median < coeffs.getD i 0 then '1' else '0'))

/-- The 63 non-DC coefficients in row-major order. -/
def phashCoeffs63 (dct : List (List ℚ)) : List ℚ :=
  (phashPositions.filter (fun p => !(p.1 == 0 && p.2 == 0))).map (dctAt dct)

/-- The median the code actually uses: the 32nd smallest (position 31
after ascending sort) of the 63 non-DC coefficients. -/
def phashMedian63 (dct : List (List ℚ)) : ℚ :=
  (List.insertionSort (· ≤ ·) (phashCoeffs63 dct)).getD 31 0

/-! ## FAST corner decision (`algorithms/orb.rs`, `detect_fast_keypoints`) -/

/-- Grayscale image: dimensions plus row-major pixel rows.  `pix`
reduces modulo 256, reflecting the `u8` pixel type. -/
structure GrayImage where
  width : ℕ
  height : ℕ
  rows : List (List ℕ)

/-- `get_pixel`: row `y`, column `x`, as a `u8` value. -/
def GrayImage.pix (img : GrayImage) (x y : ℕ) : ℕ :=
  ((img.rows.getD y []).getD x 0) % 256

/-- Wrapping `u8` addition (release-build semantics of `c + t`). -/
def u8Add (a b : ℕ) : ℕ := (a + b) % 256

/-- Wrapping `u8` subtraction (release-build semantics of `c - t`),
for `a, b < 256`. -/
def u8Sub (a b : ℕ) : ℕ := (a + 256 - b) % 256

/-- `get_bresenham_circle_pattern` for radius `r`: the 16 offsets
pushed by the source (for `r = 3` four of them repeat a neighbour). -/
def get_bresenham_circle_pattern (radius : ℕ) : List (ℤ × ℤ) :=
  let r : ℤ := radius
  [(0, -r), (1, -r + 1), (2, -r + 2), (r - 1, -1),
   (r, 0), (r - 1, 1), (r - 2, 2), (1, r - 1),
   (0, r), (-1, r - 1), (-2, r - 2), (-r + 1, 1),
   (-r, 0), (-r + 1, -1), (-r + 2, -2), (-1, -r + 1)]

/-- Accelerated 4-point pretest at `(x, y)`: at least 3 of the compass
ring points all brighter than `c + T` or all darker than `c - T`
(wrapping `u8` arithmetic, see C10). -/
def fastPretest (img : GrayImage) (x y T : ℕ) : Bool :=
  let c := img.pix x y
  let pts := [img.pix x (y - 3), img.pix (x + 3) y,
              img.pix x (y + 3), img.pix (x - 3) y]
  3 ≤ (pts.countP (fun v => u8Add c T < v)) ||
  3 ≤ (pts.countP (fun v => v < u8Sub c T))

/-- Classification of a ring point against the center. -/
inductive PtClass where
  | bright
  | dark
  | mid
deriving DecidableEq, Repr

/-- Ring classification at `(x, y)`: one class per pattern offset, in
pattern order. -/
def ringClasses (img : GrayImage) (x y T : ℕ) : List PtClass :=
  let c := img.pix x y
  (get_bresenham_circle_pattern 3).map (fun d =>
    let v := img.pix ((x : ℤ) + d.1).toNat ((y : ℤ) + d.2).toNat
    if u8Add c T < v then .bright
    else if v < u8Sub c T then .dark
    else .mid)

/-- One step of the consecutive-run loop of `detect_fast_keypoints`;
state is `(consecutive_count, is_brighter, max_consecutive)`. -/
def fastRunStep (st : ℕ × Bool × ℕ) (c : PtClass) : ℕ × Bool × ℕ :=
  match c with
  | .bright => if st.2.1 then (st.1 + 1, true, st.2.2)
               else (1, true, max st.2.2 st.1)
  | .dark => if st.2.1 then (1, false, max st.2.2 st.1)
             else (st.1 + 1, false, st.2.2)
  | .mid => (0, st.2.1, max st.2.2 st.1)

/-- Final `max_consecutive` value after the ring loop (including the
trailing `max` applied after the loop). -/
def fastMaxConsecutive (cs : List PtClass) : ℕ :=
  let st := cs.foldl fastRunStep (0, false, 0)
  max st.2.2 st.1

/-- Full corner decision of `detect_fast_keypoints` at a pixel:
pretest, then `max_consecutive >= 12` over the ring classes. -/
def fastIsCornerAt (img : GrayImage) (x y T : ℕ) : Bool :=
  fastPretest img x y T &&
    12 ≤ fastMaxConsecutive (ringClasses img x y T)

/-- A contiguous same-class run of length `m` measured around the ring
with wrap-around -- the acceptance criterion stated by the spec. -/
def hasWrapRun (cs : List PtClass) (m : ℕ) : Prop :=
  ∃ s < cs.length,
    (∀ k < m, cs.getD ((s + k) % cs.length) .mid = .bright) ∨
    (∀ k < m, cs.getD ((s + k) % cs.length) .mid = .dark)

instance (cs : List PtClass) (m : ℕ) : Decidable (hasWrapRun cs m) := by
  unfold hasWrapRun; infer_instance

/-- A contiguous same-class run of length `m` without wrap-around. -/
def hasStraightRun (cs : List PtClass) (m : ℕ) : Prop :=
  ∃ s, s + m ≤ cs.length ∧
    ((∀ k < m, cs.getD (s + k) .mid = .bright) ∨
     (∀ k < m, cs.getD (s + k) .mid = .dark))

instance (cs : List PtClass) (m : ℕ) : Decidable (hasStraightRun cs m) := by
  unfold hasStraightRun
  exact decidable_of_iff (∃ s < cs.length + 1, s + m ≤ cs.length ∧
    ((∀ k < m, cs.getD (s + k) .mid = .bright) ∨
     (∀ k < m, cs.getD (s + k) .mid = .dark)))
    (by constructor
        · rintro ⟨s, _, h⟩; exact ⟨s, h⟩
        · rintro ⟨s, h⟩; exact ⟨s, by omega, h⟩)

/-- Ring-point class corresponding to a brighter (`true`) or darker
(`false`) run. -/
def runClassOf (b : Bool) : PtClass := if b then .bright else .dark

/-- Length of the uniform prefix of the given class. -/
def extLen (b : Bool) : List PtClass → ℕ
  | [] => 0
  | c :: cs => if c = runClassOf b then extLen b cs + 1 else 0

/-- Length of the uniform non-neutral prefix run. -/
def uniPref : List PtClass → ℕ
  | [] => 0
  | .mid :: _ => 0
  | .bright :: cs => extLen true cs + 1
  | .dark :: cs => extLen false cs + 1

/-- Maximal length of a contiguous uniform non-neutral run, without
wrap-around. -/
def maxRun : List PtClass → ℕ
  | [] => 0
  | c :: cs => max (uniPref (c :: cs)) (maxRun cs)

/-- Interior pixels examined by the level-0 scan of
`detect_fast_keypoints` (`x, y` in `radius .. dim - radius`). -/
def fastExamined (img : GrayImage) (x y : ℕ) : Prop :=
  3 ≤ x ∧ x < img.width - 3 ∧ 3 ≤ y ∧ y < img.height - 3

/-- Safety of the `u8` expressions `center_val + threshold` and
`center_val - threshold` for every examined center pixel: no overflow
and no underflow, i.e. every examined center value lies in
`[T, 255 - T]`. -/
def fastU8Safe (img : GrayImage) (T : ℕ) : Prop :=
  ∀ x < img.width, ∀ y < img.height,
    fastExamined img x y →
      T ≤ img.pix x y ∧ img.pix x y + T ≤ 255

instance (img : GrayImage) (T : ℕ) : Decidable (fastU8Safe img T) := by
  unfold fastU8Safe fastExamined; infer_instance

/-! ## LSH index (`detection/lsh.rs`)

Bucket keys are `u64` values (`Nat` mod `2 ^ 64`); the bucket map is an
association list keyed by the `u64` key.  All strings the pipeline ever
feeds here are ASCII (hex, '0'/'1', or Base64 fingerprints), so Rust's
byte iteration coincides with `Char.toNat` over the string data, and
Rust's byte slicing of `&str` coincides with character slicing. -/

/-- Number of bands per algorithm (`LSHIndex::new`). -/
def lshBands : HashAlgorithm → ℕ
  | .exact => 1
  | .orb => 6
  | .average => 4
  | .difference => 4
  | .perceptual => 8

/-- `max_bucket_size`. -/
def lshMaxBucketSize : ℕ := 2000

/-- `hash_to_u64` on a character list: `h = h * 31 + byte` with
wrapping `u64` arithmetic. -/
def hashCharsToU64 (s : List Char) : ℕ :=
  s.foldl (fun h c => (h * 31 + c.toNat) % 2 ^ 64) 0

/-- `hash_to_u64` on a string. -/
def hash_to_u64 (s : String) : ℕ := hashCharsToU64 s.data

/-- Most-significant-bit-first bit expansion of a byte
(`(b >> (7 - i)) & 1` for `i` in `0..8`). -/
def byteBitsMSB (b : ℕ) : List Bool :=
  (List.range 8).map (fun i => b.testBit (7 - i))

/-- ASCII alphanumeric test (`u8::is_ascii_alphanumeric`). -/
def isAsciiAlphanum (c : Char) : Bool :=
  ('0' ≤ c && c ≤ '9') || ('A' ≤ c && c ≤ 'Z') || ('a' ≤ c && c ≤ 'z')

/-- `is_base64`: all characters in the Base64 character set and length
within 1 of a multiple of 4. -/
def is_base64 (s : String) : Bool :=
  s.data.all (fun c => isAsciiAlphanum c || c == '+' || c == '/' || c == '=')
    && s.length % 4 ≤ 1

/-- `convert_base64_to_bitvec`: decode and expand to bits, falling back
to byte-wise expansion of the raw characters when decoding fails. -/
def convert_base64_to_bitvec (s : String) : List Bool :=
  match b64Decode s.data with
  | some bytes => bytes.flatMap byteBitsMSB
  | none => s.data.flatMap (fun c => byteBitsMSB c.toNat)

/-- `hash_string_to_bitvec`. -/
def hash_string_to_bitvec (hash : String) : List Bool :=
  if 64 ≤ hash.length && hash.data.all (fun c => c == '0' || c == '1') then
    hash.data.map (fun c => c == '1')
  else if 10 ≤ hash.length && hash.startsWith "eJ" then
    convert_base64_to_bitvec hash
  else if 10 ≤ hash.length && is_base64 hash then
    convert_base64_to_bitvec hash
  else
    hash.data.flatMap (fun c => byteBitsMSB c.toNat)

/-- `bitvec_to_u64`: first 64 bits, little-endian into a `u64`. -/
def bitvec_to_u64 (bv : List Bool) : ℕ :=
  ((bv.take 64).enum).foldl
    (fun k ib => if ib.2 then k ||| (1 <<< ib.1) else k) 0

/-- Band key for one slice of a bit vector: bit `j` of the slice goes
to bit `j` of the key, bits past 63 are dropped. -/
def binarySliceKey (slice : List Bool) : ℕ :=
  slice.enum.foldl
    (fun k jb => if jb.2 && jb.1 < 64 then k ||| (1 <<< jb.1) else k) 0

/-- `generate_binary_bucket_keys`. -/
def generate_binary_bucket_keys (bands : ℕ) (bv : List Bool) : List ℕ :=
  let len := bv.length
  let bandSize := len / bands
  if bandSize = 0 then [bitvec_to_u64 bv]
  else
    (List.range bands).map (fun i =>
      let start := i * bandSize
      let stop := if i = bands - 1 then len else (i + 1) * bandSize
      binarySliceKey ((bv.drop start).take (stop - start)))

/-- `generate_orb_bucket_keys`. -/
def generate_orb_bucket_keys (bands : ℕ) (hash : String) : List ℕ :=
  let isCompressed := 20 < hash.length && hash.startsWith "eJ"
  if isCompressed then
    if hash.length ≤ bands * 8 then [hash_to_u64 hash]
    else
      let chunkSize := hash.length / bands
      (List.range bands).map (fun i =>
        let start := i * chunkSize
        let stop := if i = bands - 1 then hash.length else (i + 1) * chunkSize
        hashCharsToU64 ((hash.data.drop start).take (stop - start)))
  else
    let signatureLen := min hash.length 384
    let signature := hash.data.take signatureLen
    let chunkSize := signatureLen / bands
    if 0 < chunkSize then
      (List.range bands).map (fun i =>
        let start := i * chunkSize
        let stop := if i = bands - 1 then signatureLen else (i + 1) * chunkSize
        hashCharsToU64 ((signature.drop start).take (stop - start)))
    else [hashCharsToU64 signature]

/-- `generate_bucket_keys`: dispatch on the algorithm. -/
def generate_bucket_keys (algorithm : HashAlgorithm) (hash : String)
    (bv : List Bool) : List ℕ :=
  match algorithm with
  | .orb => generate_orb_bucket_keys (lshBands .orb) hash
  | .average | .difference | .perceptual =>
      generate_binary_bucket_keys (lshBands algorithm) bv
  | .exact => [hash_to_u64 hash]

/-- Bucket map: association list from `u64` key to the ordered index
list of the bucket. -/
def Buckets := List (ℕ × List ℕ)

/-- Bucket contents for a key (empty when absent). -/
def bucketsGet : List (ℕ × List ℕ) → ℕ → List ℕ
  | [], _ => []
  | (k, b) :: rest, key => if k = key then b else bucketsGet rest key

/-- `entry(key)` plus the guarded push of `LSHIndex::add`: append the
index unless the bucket already contains it or is at capacity. -/
def bucketsInsert : List (ℕ × List ℕ) → ℕ → ℕ → List (ℕ × List ℕ)
  | [], key, index => [(key, [index])]
  | (k, b) :: rest, key, index =>
      if k = key then
        (k, if index ∈ b ∨ lshMaxBucketSize ≤ b.length then b
            else b ++ [index]) :: rest
      else (k, b) :: bucketsInsert rest key index

/-- `LSHIndex::add`: skip empty fingerprints, otherwise insert the
index under every bucket key of the fingerprint. -/
def lshAdd (buckets : List (ℕ × List ℕ)) (algorithm : HashAlgorithm)
    (hash : String) (index : ℕ) : List (ℕ × List ℕ) :=
  if hash.isEmpty then buckets
  else
    (generate_bucket_keys algorithm hash (hash_string_to_bitvec hash)).foldl
      (fun b key => bucketsInsert b key index) buckets

/-- `batch_add` over a hash list starting at index `start`.  The
parallel branch of the source applies per-chunk updates under a lock;
with chunks taken in index order its effect is index-ordered insertion,
which is also the sequential branch, so both are embedded as the
ordered fold. -/
def lshBatchAdd (buckets : List (ℕ × List ℕ)) (algorithm : HashAlgorithm)
    (hashes : List String) (start : ℕ) : List (ℕ × List ℕ) :=
  hashes.enum.foldl
    (fun b ih => lshAdd b algorithm ih.2 (start + ih.1)) buckets

/-- `LSHIndex::query`: union of the buckets of the fingerprint's keys,
deduplicated and sorted ascending. -/
def lshQuery (buckets : List (ℕ × List ℕ)) (algorithm : HashAlgorithm)
    (hash : String) : List ℕ :=
  if hash.isEmpty then []
  else
    let keys := generate_bucket_keys algorithm hash (hash_string_to_bitvec hash)
    List.insertionSort (· ≤ ·) (keys.flatMap (bucketsGet buckets)).dedup

/-- `compute_pairs_small_dataset`: one index over all fingerprints,
then for every `i` the candidates `j > i` from its query.  Each
unordered pair is produced at most once (only at its smaller index), so
the source's `HashSet` deduplication is the identity; its iteration
order feeds order-insensitive consumers. -/
def compute_pairs_small_dataset (hashes : List String)
    (algorithm : HashAlgorithm) : List (ℕ × ℕ) :=
  let lsh := lshBatchAdd [] algorithm hashes 0
  (List.range hashes.length).flatMap (fun i =>
    ((lshQuery lsh algorithm (hashes.getD i "")).filter (fun j => i < j)).map
      (fun j => (i, j)))

/-- Lexicographic order on index pairs (`sort_unstable` on
`(usize, usize)`). -/
def pairLe (a b : ℕ × ℕ) : Prop :=
  a.1 < b.1 ∨ (a.1 = b.1 ∧ a.2 ≤ b.2)

instance : DecidableRel pairLe := by
  unfold pairLe; infer_instance

/-- Batch size of `compute_pairs_large_dataset`. -/
def lshBatchSize : HashAlgorithm → ℕ
  | .orb => 2000
  | .exact => 10000
  | _ => 5000

/-- `compute_pairs_large_dataset`: intra-batch candidate pairs from a
per-batch index, cross-batch pairs from querying every earlier batch's
index, all collected into a set and sorted.  The set contents are
schedule-independent, so the embedding builds the same pairs in batch
order and dedups before the final sort. -/
def compute_pairs_large_dataset (hashes : List String)
    (algorithm : HashAlgorithm) : List (ℕ × ℕ) :=
  let batchSize := lshBatchSize algorithm
  let batchCount := (hashes.length + batchSize - 1) / batchSize
  let batchOf := fun (b : ℕ) => (hashes.drop (b * batchSize)).take batchSize
  let lshOf := fun (b : ℕ) => lshBatchAdd [] algorithm (batchOf b) 0
  let intra := (List.range batchCount).flatMap (fun b =>
    let start := b * batchSize
    let batch := batchOf b
    (List.range batch.length).flatMap (fun i =>
      ((lshQuery (lshOf b) algorithm (batch.getD i "")).filter
        (fun j => i < j)).map (fun j => (i + start, j + start))))
  let cross := (List.range batchCount).flatMap (fun i =>
    (List.range batchCount).flatMap (fun j =>
      if i < j then
        let iStart := i * batchSize
        let jStart := j * batchSize
        (batchOf j).enum.flatMap (fun jh =>
          (lshQuery (lshOf i) algorithm jh.2).map
            (fun iIdx => (iIdx + iStart, jh.1 + jStart)))
      else []))
  List.insertionSort pairLe (intra ++ cross).dedup

/-- `compute_candidate_pairs`: dispatch on dataset size. -/
def compute_candidate_pairs (hashes : List String)
    (algorithm : HashAlgorithm) : List (ℕ × ℕ) :=
  if hashes.length ≤ 1 then []
  else if hashes.length ≤ 5000 then
    compute_pairs_small_dataset hashes algorithm
  else compute_pairs_large_dataset hashes algorithm

/-! ## Disjoint set (`detection/duplicate.rs`, `DisjointSet`)

The imperative loops are embedded with explicit fuel equal to the
number of elements: on every state the pipeline actually constructs the
parent pointers form a rooted forest, so `n` steps always reach the
root (proved below), and out-of-range reads (never executed by the
code, which only passes indices `< n`) default to self-roots. -/

/-- The `DisjointSet` struct. -/
structure DisjointSet where
  parent : List ℕ
  rank : List ℕ
  size : List ℕ
deriving Repr

/-- `DisjointSet::new`. -/
def DisjointSet.new (n : ℕ) : DisjointSet :=
  ⟨List.range n, List.replicate n 0, List.replicate n 1⟩

/-- First loop of `find`: chase parent pointers to the root. -/
def findRootAux (p : List ℕ) : ℕ → ℕ → ℕ
  | 0, x => x
  | fuel + 1, x =>
      let px := p.getD x x
      if px = x then x else findRootAux p fuel px

/-- Root of `x` in a parent vector. -/
def rootOf (p : List ℕ) (x : ℕ) : ℕ := findRootAux p p.length x

/-- Second loop of `find`: path compression, re-walking from `x` and
pointing every node on the path at the root. -/
def compressAux : ℕ → List ℕ → ℕ → ℕ → List ℕ
  | 0, p, _, _ => p
  | fuel + 1, p, root, x =>
      if x = root then p
      else compressAux fuel (p.set x root) root (p.getD x x)

/-- `DisjointSet::find`: root plus the compressed structure. -/
def DisjointSet.find (s : DisjointSet) (x : ℕ) : ℕ × DisjointSet :=
  let root := findRootAux s.parent s.parent.length x
  (root, { s with parent := compressAux s.parent.length s.parent root x })

/-- `DisjointSet::union`: find both roots (threading the compressed
states), then link by size, update size, and bump equal ranks.  The
`u8` rank increments stay far below 256 for any feasible input
(rank is at most log2 of the element count), so `ℕ` is exact. -/
def DisjointSet.union (s : DisjointSet) (x y : ℕ) : DisjointSet :=
  let fx := s.find x
  let fy := fx.2.find y
  let rootX := fx.1
  let rootY := fy.1
  let s2 := fy.2
  if rootX = rootY then s2
  else
    let rx := if s2.size.getD rootX 0 < s2.size.getD rootY 0 then rootY else rootX
    let ry := if s2.size.getD rootX 0 < s2.size.getD rootY 0 then rootX else rootY
    let s3 : DisjointSet :=
      { s2 with
        parent := s2.parent.set ry rx
        size := s2.size.set rx (s2.size.getD rx 0 + s2.size.getD ry 0) }
    if s3.rank.getD rx 0 = s3.rank.getD ry 0 then
      { s3 with rank := s3.rank.set rx (s3.rank.getD rx 0 + 1) }
    else s3

/-- One parent-pointer step (`parent[x]`, out-of-range reads default to
a self-loop, which the code never performs). -/
def stepP (p : List ℕ) (x : ℕ) : ℕ := p.getD x x

/-- A root: a self-parented node. -/
def isRootP (p : List ℕ) (x : ℕ) : Prop := stepP p x = x

instance (p : List ℕ) (x : ℕ) : Decidable (isRootP p x) := by
  unfold isRootP; infer_instance

/-- The parent chain from `y` reaches the root `r`. -/
def reaches (p : List ℕ) (y r : ℕ) : Prop :=
  ∃ k, (stepP p)^[k] y = r ∧ isRootP p r

/-- Well-formedness of a parent vector: in-range parents for in-range
nodes, and every chain reaches a root.  Holds for every parent vector
the pipeline constructs. -/
def parentWF (p : List ℕ) : Prop :=
  (∀ i < p.length, stepP p i < p.length) ∧ ∀ y, ∃ r, reaches p y r

/-- The root `find` computes (fuel `p.length` suffices on well-formed
vectors). -/
def rootD (p : List ℕ) (y : ℕ) : ℕ := findRootAux p p.length y

/-! ## Detection pipeline (`detection/duplicate.rs`)

File-system effects are inputs: the decoding/fingerprinting outcome of
each path is given as an `Except`, and file metadata as a total oracle
`String → ℕ × String × String` (size, created, modified; the source
drops an image from a group when its metadata read fails, which is an
external-file-system event outside this embedding). -/

/-- The `ImageInfo` struct. -/
structure ImageInfo where
  path : String
  hash : String
  width : ℕ
  height : ℕ
  sizeBytes : ℕ
  createdAt : String
  modifiedAt : String
deriving DecidableEq, Repr

/-- The `DuplicateGroup` struct. -/
structure DuplicateGroup where
  images : List ImageInfo
  similarityThreshold : ℚ
deriving DecidableEq, Repr

/-- `compute_image_hashes`: results are collected per index and the
failures dropped; error only when every image failed.  (The global
similarity cache of the source is cleared at the start of every
detection and each candidate pair is computed at most once per run, so
it never changes a computed value and is not part of the model.) -/
def compute_image_hashes (outcomes : List (Except String HashResult)) :
    Except String (List HashResult) :=
  if outcomes.isEmpty then .ok []
  else
    let valid := outcomes.filterMap (fun o => o.toOption)
    if valid.isEmpty then .error "all image processing failed"
    else .ok valid

/-- Binary bit-vector cache of `find_duplicate_groups`: only strings of
length at least 64 consisting of '0'/'1' get a vector. -/
def binaryBitVecOf (hash : String) : Option (List Bool) :=
  if 64 ≤ hash.length && hash.data.all (fun c => c == '0' || c == '1') then
    some (hash.data.map (fun c => c == '1'))
  else none

/-- Pair similarity as computed in `find_duplicate_groups`: bit-vector
Hamming score when both sides have binary vectors of equal length,
otherwise `calculate_similarity`. -/
def pairSimilarity (hashStrings : List String)
    (algorithm : HashAlgorithm) (i j : ℕ) : ℚ :=
  let h1 := hashStrings.getD i ""
  let h2 := hashStrings.getD j ""
  match binaryBitVecOf h1, binaryBitVecOf h2 with
  | some bv1, some bv2 =>
      if bv1.length = bv2.length then
        100 * (1 - (((bv1.zip bv2).filter (fun p => p.1 ≠ p.2)).length : ℚ) /
          (bv1.length : ℚ))
      else calculate_similarity h1 h2 algorithm
  | _, _ => calculate_similarity h1 h2 algorithm

/-- Metadata oracle: size in bytes, creation time, modification time. -/
def MetaOracle := String → ℕ × String × String

/-- Construction of one `ImageInfo` from index `idx`. -/
def mkImageInfo (md : String → ℕ × String × String) (paths : List String)
    (hashes : List HashResult) (idx : ℕ) : ImageInfo :=
  let path := paths.getD idx ""
  let hr := hashes.getD idx default
  let m := md path
  ⟨path, hr.hash, hr.width, hr.height, m.1, m.2.1, m.2.2⟩

/-- Root-collection loop of `find_duplicate_groups`: `find` every index
in order, threading the compressed structure. -/
def collectRoots (s : DisjointSet) (n : ℕ) : List ℕ :=
  ((List.range n).foldl
    (fun acc i =>
      let f := acc.2.find i
      (acc.1 ++ [f.1], f.2))
    (([] : List ℕ), s)).1

/-- Candidate pairs of a run that pass the similarity-threshold filter
(`similarity_results` of `find_duplicate_groups`: every retained pair
satisfies `threshold <= similarity`). -/
def verifiedPairs (hashes : List HashResult) (algorithm : HashAlgorithm)
    (threshold : ℚ) : List (ℕ × ℕ) :=
  let hashStrings := hashes.map (·.hash)
  (compute_candidate_pairs hashStrings algorithm).filter
    (fun p => threshold ≤ pairSimilarity hashStrings algorithm p.1 p.2)

/-- The undirected similarity-graph edge relation of a run: the pair
passed LSH candidate generation and its verified similarity met the
threshold. -/
def verifiedEdge (hashes : List HashResult) (algorithm : HashAlgorithm)
    (threshold : ℚ) (i j : ℕ) : Prop :=
  (i, j) ∈ verifiedPairs hashes algorithm threshold ∨
  (j, i) ∈ verifiedPairs hashes algorithm threshold

/-- `find_duplicate_groups`.  The group map is traversed in
first-occurrence order of the roots (the source's `HashMap` order is
unspecified; the final output is sorted by the caller and all
properties proved below are order-insensitive).  The conditional `push`
of the group-assembly loop is written as a `filterMap` over the member
lists. -/
def find_duplicate_groups (md : String → ℕ × String × String)
    (paths : List String) (hashes : List HashResult)
    (algorithm : HashAlgorithm) (threshold : ℚ) :
    Except String (List DuplicateGroup) :=
  if hashes.isEmpty then .ok []
  else if paths.length ≠ hashes.length then
    .error "hash count does not match path count"
  else
    let edges := verifiedPairs hashes algorithm threshold
    let ds := edges.foldl (fun s p => s.union p.1 p.2) (DisjointSet.new hashes.length)
    let roots := collectRoots ds hashes.length
    let groups := (roots.dedup.map (fun r =>
      (List.range hashes.length).filter (fun i => roots.getD i 0 = r))).filterMap
      (fun indices =>
        if indices.length ≤ 1 then none
        else
          let images := indices.map (mkImageInfo md paths hashes)
          if 1 < images.length then some ⟨images, threshold⟩
          else none)
    .ok groups

/-- Descending-size comparator of the final group sort
(`b.images.len().cmp(&a.images.len())`, a stable sort). -/
def groupSizeGe (g1 g2 : DuplicateGroup) : Prop :=
  g2.images.length ≤ g1.images.length

instance : DecidableRel groupSizeGe := by
  unfold groupSizeGe; infer_instance

/-- `detect_duplicates`, with path enumeration and fingerprinting
outcomes as inputs (`outcomes` is index-aligned with `paths`). -/
def detect_duplicates (md : String → ℕ × String × String)
    (paths : List String) (outcomes : List (Except String HashResult))
    (algorithm : HashAlgorithm) (threshold : ℚ) :
    Except String (List DuplicateGroup) :=
  if paths.isEmpty then .ok []
  else do
    let imageHashes ← compute_image_hashes outcomes
    let groups ← find_duplicate_groups md paths imageHashes algorithm threshold
    pure (List.insertionSort groupSizeGe groups)

/-! ## Concrete inputs used by counterexamples and witnesses -/

/-- An all-zero, well-formed ORB descriptor. -/
def dZero : Descriptor := ⟨0, 0, 0, List.replicate 32 0⟩

/-- DCT coefficient matrix with a large DC coefficient and zero AC
coefficients (the thresholding image of a near-constant bright
input). -/
def dctDcOnly : List (List ℚ) :=
  [100, 0, 0, 0, 0, 0, 0, 0] :: List.replicate 7 (List.replicate 8 (0 : ℚ))

/-- A 12x12 all-black image: every examined center pixel underflows
`center_val - threshold` at the default threshold 20. -/
def zeroImg12 : GrayImage := ⟨12, 12, List.replicate 12 (List.replicate 12 0)⟩

/-- A 7x7 image whose center pixel (3,3) sees exactly ring points
0 through 8 (nine contiguous points, including three compass points)
brighter than `c + T` for `T = 20`, all other ring points neutral. -/
def img7ring9 : GrayImage :=
  ⟨7, 7,
   [[100, 100, 100, 130, 100, 100, 100],
    [100, 100, 100, 100, 130, 100, 100],
    [100, 100, 100, 100, 100, 130, 100],
    [100, 100, 100, 100, 100, 100, 130],
    [100, 100, 100, 100, 100, 130, 100],
    [100, 100, 100, 100, 130, 100, 100],
    [100, 100, 100, 130, 100, 100, 100]]⟩

/-- A 7x7 image whose center pixel (3,3) sees ring points 0 through 11
(twelve contiguous points) brighter than `c + T` for `T = 20`. -/
def img7run12 : GrayImage :=
  ⟨7, 7,
   [[100, 100, 100, 130, 100, 100, 100],
    [100, 100, 100, 100, 130, 100, 100],
    [100, 100, 100, 100, 100, 130, 100],
    [100, 100, 100, 100, 100, 100, 130],
    [100, 130, 100, 100, 100, 130, 100],
    [100, 100, 130, 100, 130, 100, 100],
    [100, 100, 100, 130, 100, 100, 100]]⟩

/-- Metadata oracle returning zero size and empty timestamps. -/
def mdZero : String → ℕ × String × String := fun _ => (0, "", "")

def hAllZeros : String :=
  "0000000000000000000000000000000000000000000000000000000000000000"

def hAllOnes : String :=
  "1111111111111111111111111111111111111111111111111111111111111111"

def hHexA : String :=
  "a2a2a2a2a2a2a2a2a2a2a2a2a2a2a2a2a2a2a2a2a2a2a2a2a2a2a2a2a2a2a2a2"

def hHexB : String :=
  "b3b3b3b3b3b3b3b3b3b3b3b3b3b3b3b3b3b3b3b3b3b3b3b3b3b3b3b3b3b3b3b3"

def hColl1 : String :=
  "0984040000000029960092195651057400180000304000000076003021000790"

def hColl2 : String :=
  "8000900773996400002100000000200021007386060354879200230000466003"

def pathsC3 : List String := ["a", "b"]

def hashesC3 : List HashResult := [⟨hAllZeros, 8, 8⟩, ⟨hAllZeros, 8, 8⟩]

def outcomesC3 : List (Except String HashResult) :=
  [.ok ⟨hAllZeros, 8, 8⟩, .ok ⟨hAllZeros, 8, 8⟩]

def gC3 : DuplicateGroup :=
  ⟨[mkImageInfo mdZero pathsC3 hashesC3 0, mkImageInfo mdZero pathsC3 hashesC3 1], 90⟩

def pathsC9 : List String := ["a", "b", "c", "d"]

def hashesC9 : List HashResult :=
  [⟨hAllZeros, 8, 8⟩, ⟨hAllZeros, 8, 8⟩, ⟨hAllOnes, 8, 8⟩, ⟨hAllOnes, 8, 8⟩]

def outcomesC9 : List (Except String HashResult) :=
  [.ok ⟨hAllZeros, 8, 8⟩, .ok ⟨hAllZeros, 8, 8⟩,
   .ok ⟨hAllOnes, 8, 8⟩, .ok ⟨hAllOnes, 8, 8⟩]

def gsC9 : List DuplicateGroup :=
  [⟨[mkImageInfo mdZero pathsC9 hashesC9 0, mkImageInfo mdZero pathsC9 hashesC9 1], 90⟩,
   ⟨[mkImageInfo mdZero pathsC9 hashesC9 2, mkImageInfo mdZero pathsC9 hashesC9 3], 90⟩]

def pathsC2 : List String := ["a", "b", "c"]

def hashesC2 : List HashResult := [⟨hHexA, 8, 8⟩, ⟨hHexA, 8, 8⟩, ⟨hHexB, 8, 8⟩]

def outcomesC2 : List (Except String HashResult) :=
  [.ok ⟨hHexA, 8, 8⟩, .ok ⟨hHexA, 8, 8⟩, .ok ⟨hHexB, 8, 8⟩]

def gsC2 : List DuplicateGroup :=
  [⟨[mkImageInfo mdZero pathsC2 hashesC2 0, mkImageInfo mdZero pathsC2 hashesC2 1], 100⟩]

def pathsColl : List String := ["a", "b"]

def hashesColl : List HashResult := [⟨hColl1, 8, 8⟩, ⟨hColl2, 8, 8⟩]

def outcomesColl : List (Except String HashResult) :=
  [.ok ⟨hColl1, 8, 8⟩, .ok ⟨hColl2, 8, 8⟩]

def gsColl : List DuplicateGroup :=
  [⟨[mkImageInfo mdZero pathsColl hashesColl 0,
     mkImageInfo mdZero pathsColl hashesColl 1], 0⟩]

/-! ## Theorems -/

/- The Batteries rational operations are `@[irreducible]`, which blocks
elaborator-side evaluation (`decide`) of concrete scores; the kernel
reduces them fine.  Re-mark them for this development. -/
attribute [local semireducible] Rat.add Rat.mul Rat.sub Rat.inv

theorem b64Index_b64Char : ∀ n < 64, b64Index (b64Char n) = some n := by decide

theorem b64Char_ne_pad (n : ℕ) : b64Char n ≠ '=' := by
  rcases Nat.lt_or_ge n 64 with h | h
  · revert h; revert n; decide
  · unfold b64Char
    rw [List.getD_eq_default]
    · decide
    · simpa using h

theorem b64_roundtrip : ∀ bs : List ℕ, (∀ b ∈ bs, b < 256) →
    b64Decode (b64Encode bs) = some bs
  | [], _ => rfl
  | [b0], h => by
    have hb0 : b0 < 256 := h b0 (by simp)
    simp only [b64Encode, b64Decode, true_and, and_self, if_true]
    rw [b64Index_b64Char _ (by omega), b64Index_b64Char _ (by omega)]
    simp only [Option.some_bind]
    rw [if_pos (by omega)]
    congr 2
    omega
  | [b0, b1], h => by
    have hb0 : b0 < 256 := h b0 (by simp)
    have hb1 : b1 < 256 := h b1 (by simp)
    simp only [b64Encode, b64Decode, true_and, and_true, and_self]
    rw [if_neg (by simpa using (b64Char_ne_pad (b1 % 16 * 4))), if_pos trivial]
    rw [b64Index_b64Char _ (by omega), b64Index_b64Char _ (by omega),
      b64Index_b64Char _ (by omega)]
    simp only [Option.some_bind]
    rw [if_pos (by omega)]
    congr 3
    · omega
    · omega
  | b0 :: b1 :: b2 :: rest, h => by
    have hb0 : b0 < 256 := h b0 (by simp)
    have hb1 : b1 < 256 := h b1 (by simp)
    have hb2 : b2 < 256 := h b2 (by simp)
    have ih := b64_roundtrip rest (fun b hb => h b (by simp [hb]))
    simp only [b64Encode, b64Decode]
    rw [if_neg ?hn1, if_neg ?hn2]
    case hn1 => rintro ⟨-, h2, -⟩; exact b64Char_ne_pad _ h2
    case hn2 => rintro ⟨-, h3⟩; exact b64Char_ne_pad _ h3
    rw [b64Index_b64Char _ (by omega), b64Index_b64Char _ (by omega),
      b64Index_b64Char _ (by omega), b64Index_b64Char _ (by omega), ih]
    simp only [Option.some_bind]
    congr 4
    · omega
    · omega
    · omega

theorem u32_roundtrip (n : ℕ) (h : n < 2 ^ 32) :
    u32FromLeBytes (n % 256) (n / 256 % 256) (n / 65536 % 256)
      (n / 16777216 % 256) = n := by
  unfold u32FromLeBytes
  omega

theorem descriptorBytes_length (d : Descriptor) (h : d.data.length = 32) :
    (descriptorBytes d).length = 44 := by
  simp [descriptorBytes, u32ToLeBytes, h]

theorem u32ToLeBytes_lt (n : ℕ) : ∀ b ∈ u32ToLeBytes n, b < 256 := by
  intro b hb
  simp only [u32ToLeBytes, List.mem_cons, List.not_mem_nil, or_false] at hb
  rcases hb with rfl | rfl | rfl | rfl <;> omega

theorem descriptorBytes_lt (d : Descriptor) (hwf : d.WF) :
    ∀ b ∈ descriptorBytes d, b < 256 := by
  obtain ⟨-, -, -, -, hdata⟩ := hwf
  intro b hb
  simp only [descriptorBytes, List.mem_append] at hb
  rcases hb with ((hb | hb) | hb) | hb
  · exact u32ToLeBytes_lt _ b hb
  · exact u32ToLeBytes_lt _ b hb
  · exact u32ToLeBytes_lt _ b hb
  · exact hdata b hb

theorem parse_roundtrip : ∀ (ds : List Descriptor) (rest : List ℕ),
    (∀ d ∈ ds, d.WF) →
    parseDescriptors ds.length ((ds.map descriptorBytes).flatten ++ rest) = ds
  | [], _, _ => rfl
  | d :: ds, rest, h => by
    have hwf : d.WF := h d (by simp)
    have ih := parse_roundtrip ds rest (fun e he => h e (by simp [he]))
    obtain ⟨dx, dy, da, dd⟩ := d
    obtain ⟨hx, hy, ha, hlen, -⟩ := hwf
    simp only at hx hy ha hlen
    simp only [List.map_cons, List.flatten_cons, List.length_cons, List.append_assoc]
    show parseDescriptors (ds.length + 1) (descriptorBytes ⟨dx, dy, da, dd⟩ ++ _) = _
    unfold parseDescriptors
    rw [show (descriptorBytes ⟨dx, dy, da, dd⟩ ++
          ((ds.map descriptorBytes).flatten ++ rest)).drop 44 =
        (ds.map descriptorBytes).flatten ++ rest by
      rw [← descriptorBytes_length ⟨dx, dy, da, dd⟩ hlen, List.drop_left]]
    rw [ih]
    congr 1
    simp only [descriptorBytes, u32ToLeBytes, List.cons_append, List.nil_append]
    simp only [Descriptor.mk.injEq]
    refine ⟨?_, ?_, ?_, ?_⟩ <;>
      simp only [List.getD_cons_zero, List.getD_cons_succ, List.drop_succ_cons,
        List.drop_zero]
    · exact u32_roundtrip dx hx
    · exact u32_roundtrip dy hy
    · exact u32_roundtrip da ha
    · rw [← hlen, List.take_left]

theorem flatten_db_length (ds : List Descriptor) (h : ∀ d ∈ ds, d.WF) :
    ((ds.map descriptorBytes).flatten).length = 44 * ds.length := by
  induction ds with
  | nil => rfl
  | cons d rest ih =>
      have hd : d.data.length = 32 := (h d (by simp)).2.2.2.1
      simp only [List.map_cons, List.flatten_cons, List.length_append,
        descriptorBytes_length d hd, ih (fun e he => h e (by simp [he])),
        List.length_cons]
      ring

/-- C6: decoding an encoded ORB feature payload is the identity on
record lists of length at most 50: Base64-decoding the serialized
string and deserializing returns exactly the input records (same
coordinates, angle bit patterns, and descriptor bytes, in order). -/
theorem orb_codec_roundtrip (ds : List Descriptor)
    (hwf : ∀ d ∈ ds, d.WF) (hcap : ds.length ≤ 50) :
    (b64Decode (serialize_features ds).data).map deserialize_features =
      some (Except.ok ds) := by
  have hmin : min ds.length 50 = ds.length := min_eq_left hcap
  have hbytes : ∀ b ∈ u32ToLeBytes (min ds.length 50) ++
      ((ds.take (min ds.length 50)).map descriptorBytes).flatten, b < 256 := by
    intro b hb
    rcases List.mem_append.1 hb with hb | hb
    · exact u32ToLeBytes_lt _ b hb
    · obtain ⟨l, hl, hbl⟩ := List.mem_flatten.1 hb
      obtain ⟨d, hd, rfl⟩ := List.mem_map.1 hl
      exact descriptorBytes_lt d (hwf d (List.mem_of_mem_take hd)) b hbl
  unfold serialize_features
  show (b64Decode (String.mk _).data).map deserialize_features = _
  rw [show (String.mk (b64Encode (u32ToLeBytes (min ds.length 50) ++
      ((ds.take (min ds.length 50)).map descriptorBytes).flatten))).data =
    b64Encode (u32ToLeBytes (min ds.length 50) ++
      ((ds.take (min ds.length 50)).map descriptorBytes).flatten) from rfl]
  rw [b64_roundtrip _ hbytes]
  rw [show ∀ (x : List ℕ), Option.map deserialize_features (some x) =
      some (deserialize_features x) from fun _ => rfl]
  congr 1
  rw [hmin, List.take_length]
  have hflat : ((ds.map descriptorBytes).flatten).length = 44 * ds.length :=
    flatten_db_length ds hwf
  unfold deserialize_features
  rw [if_neg (by simp [u32ToLeBytes])]
  have hcount : u32FromLeBytes
      ((u32ToLeBytes ds.length ++ (ds.map descriptorBytes).flatten).getD 0 0)
      ((u32ToLeBytes ds.length ++ (ds.map descriptorBytes).flatten).getD 1 0)
      ((u32ToLeBytes ds.length ++ (ds.map descriptorBytes).flatten).getD 2 0)
      ((u32ToLeBytes ds.length ++ (ds.map descriptorBytes).flatten).getD 3 0) =
      ds.length := by
    simp only [u32ToLeBytes, List.cons_append, List.getD_cons_zero,
      List.getD_cons_succ]
    exact u32_roundtrip ds.length (by omega)
  rw [hcount]
  rw [if_neg (by simp [u32ToLeBytes, hflat]; omega)]
  congr 1
  rw [show (u32ToLeBytes ds.length ++ (ds.map descriptorBytes).flatten).drop 4 =
      (ds.map descriptorBytes).flatten by simp [u32ToLeBytes]]
  rw [← List.append_nil ((ds.map descriptorBytes).flatten)]
  exact parse_roundtrip ds [] hwf

theorem orb_codec_roundtrip_witness :
    (b64Decode (serialize_features [⟨3, 4, 5, List.replicate 32 7⟩]).data).map
      deserialize_features =
      some (Except.ok [⟨3, 4, 5, List.replicate 32 7⟩]) :=
  orb_codec_roundtrip [⟨3, 4, 5, List.replicate 32 7⟩] (by decide) (by decide)

theorem hamming_distance_comm (x y : String) :
    hamming_distance x y = hamming_distance y x := by
  unfold hamming_distance
  rw [show y.data.zip x.data = (x.data.zip y.data).map Prod.swap from
    (List.zip_swap x.data y.data).symm]
  rw [List.filter_map]
  simp only [List.length_map]
  congr 1
  apply List.filter_congr
  intro p _
  simp [Function.comp, Prod.swap, ne_comm]

theorem hamming_distance_self (x : String) : hamming_distance x x = 0 := by
  unfold hamming_distance
  induction x.data with
  | nil => rfl
  | cons a l ih => simpa using ih

/-- C7: for every non-ORB algorithm the similarity is symmetric on
equal-length fingerprint strings, and the similarity of a (nonempty)
fingerprint with itself is 100.  The two length hypotheses reflect the
fingerprint format (64 characters for the algorithms concerned): with
mismatched lengths the score normalizes by the first argument's length
and is not symmetric, and on the empty string the `f32` code yields
NaN rather than 100. -/
theorem nonorb_similarity_symm_self (algorithm : HashAlgorithm)
    (halg : algorithm ≠ .orb) (x y : String)
    (hxy : x.length = y.length) (_hx : 0 < x.length) :
    calculate_similarity x y algorithm = calculate_similarity y x algorithm ∧
    calculate_similarity x x algorithm = 100 := by
  have hsym : hash_similarity x y = hash_similarity y x := by
    unfold hash_similarity
    rw [hamming_distance_comm, hxy]
  have hself : hash_similarity x x = 100 := by
    unfold hash_similarity
    rw [hamming_distance_self]
    norm_num
  cases algorithm with
  | exact =>
      refine ⟨?_, by simp [calculate_similarity]⟩
      simp only [calculate_similarity]
      by_cases h : x = y <;> simp [h, eq_comm]
  | average => exact ⟨hsym, hself⟩
  | difference => exact ⟨hsym, hself⟩
  | perceptual => exact ⟨hsym, hself⟩
  | orb => exact absurd rfl halg

theorem nonorb_similarity_symm_self_witness :
    calculate_similarity "01" "10" .average =
      calculate_similarity "10" "01" .average ∧
    calculate_similarity "01" "01" .average = 100 :=
  nonorb_similarity_symm_self .average (by decide) "01" "10" (by rfl) (by decide)

/-- C1: evaluation of the pipeline at a two-image run in which exactly
one image fails fingerprinting.  `compute_image_hashes` succeeds with
the single surviving fingerprint, but the path vector keeps both
entries, so `find_duplicate_groups` hits its length-mismatch guard and
the whole detection returns an error -- contradicting the recovery
policy the claim states (and the source's own log line that failed
images are merely ignored). -/
theorem detect_duplicates_partial_failure
    (md : String → ℕ × String × String) (algorithm : HashAlgorithm)
    (threshold : ℚ) :
    detect_duplicates md ["a", "b"]
      [.ok ⟨"h", 1, 1⟩, .error "decode failed"] algorithm threshold =
      .error "hash count does not match path count" := rfl

theorem hamming_distance_le (x y : String) :
    hamming_distance x y ≤ x.length := by
  unfold hamming_distance
  calc ((x.data.zip y.data).filter _).length
      ≤ (x.data.zip y.data).length := List.length_filter_le _ _
    _ ≤ x.data.length := by rw [List.length_zip]; omega
    _ = x.length := rfl

theorem match_descriptors_length_le (ds1 ds2 : List Descriptor) :
    (match_descriptors ds1 ds2).length ≤ ds1.length := by
  unfold match_descriptors
  have hbase : ((ds1.map (fun d1 => ds2.map (fun d2 =>
      compute_hamming_distance d1.data d2.data))).enum.filterMap (fun ir =>
        let st := bestScan ir.2
        if loweAccept st.1 st.2.1 then some (ir.1, st.2.2) else none)).length ≤
      ds1.length := by
    calc _ ≤ ((ds1.map (fun d1 => ds2.map (fun d2 =>
          compute_hamming_distance d1.data d2.data))).enum).length :=
        List.length_filterMap_le _ _
      _ = _ := by simp [List.enum_length]
  simp only
  split
  · unfold filter_matches_by_distance_consistency
    split
    · exact hbase
    · refine le_trans ?_ hbase
      rw [List.length_map]
      refine le_trans (List.length_filter_le _ _) ?_
      simp [List.enum_length]
  · exact hbase

/-- C5 counterexample: two identical zero descriptors against one --
every query descriptor matches the single train descriptor (best
distance 0, no second best), no geometric filter below 11 matches, so
the score is (2 / 1) * 100 = 200, outside [0, 100]. -/
theorem orb_similarity_exceeds_100 :
    calculate_similarity (serialize_features [dZero, dZero])
        (serialize_features [dZero]) .orb = 200 ∧
    ¬ (calculate_similarity (serialize_features [dZero, dZero])
        (serialize_features [dZero]) .orb ≤ 100) := by
  constructor
  · decide
  · decide

/-- C5 amended: every non-ORB score is within [0, 100] (for fingerprints
of positive length, matching the format); the ORB score is 0 whenever
either side has no descriptors and is bounded by
100 * |D1| / min(|D1|, |D2|) -- in particular it lies within [0, 100]
whenever |D1| <= |D2|, but only then: each query descriptor can match
the same train descriptor, so the match count is bounded by |D1| alone
and the score can exceed 100 when |D2| < |D1|. -/
theorem similarity_score_range (algorithm : HashAlgorithm) (h1 h2 : String)
    (ds1 ds2 : List Descriptor) :
    (algorithm ≠ .orb → 0 < h1.length →
      0 ≤ calculate_similarity h1 h2 algorithm ∧
      calculate_similarity h1 h2 algorithm ≤ 100) ∧
    ((ds1 = [] ∨ ds2 = []) → orbScoreOfDescriptors ds1 ds2 = 0) ∧
    (0 ≤ orbScoreOfDescriptors ds1 ds2) ∧
    (orbScoreOfDescriptors ds1 ds2 ≤
      100 * (ds1.length : ℚ) / ((min ds1.length ds2.length : ℕ) : ℚ)) ∧
    (ds1.length ≤ ds2.length → orbScoreOfDescriptors ds1 ds2 ≤ 100) := by
  have hham : ∀ x y : String, 0 < x.length →
      0 ≤ hash_similarity x y ∧ hash_similarity x y ≤ 100 := by
    intro x y hx
    unfold hash_similarity
    have hd : (hamming_distance x y : ℚ) ≤ (x.length : ℚ) := by
      exact_mod_cast hamming_distance_le x y
    have hd0 : (0 : ℚ) ≤ (hamming_distance x y : ℚ) := by positivity
    have hL : (0 : ℚ) < (x.length : ℚ) := by exact_mod_cast hx
    have h1 : (hamming_distance x y : ℚ) / (x.length : ℚ) ≤ 1 :=
      (div_le_one hL).2 hd
    have h0 : (0 : ℚ) ≤ (hamming_distance x y : ℚ) / (x.length : ℚ) :=
      div_nonneg hd0 hL.le
    constructor <;> nlinarith
  refine ⟨?_, ?_, ?_, ?_, ?_⟩
  · intro halg hlen
    cases algorithm with
    | exact =>
        simp only [calculate_similarity]
        split <;> norm_num
    | average => exact hham h1 h2 hlen
    | difference => exact hham h1 h2 hlen
    | perceptual => exact hham h1 h2 hlen
    | orb => exact absurd rfl halg
  · intro hz
    unfold orbScoreOfDescriptors
    rcases hz with rfl | rfl <;> simp
  · unfold orbScoreOfDescriptors
    simp only
    split
    · exact le_refl 0
    · positivity
  · unfold orbScoreOfDescriptors
    simp only
    split
    · rename_i ht
      rw [ht]
      norm_num
    · rename_i ht
      have hm : ((match_descriptors ds1 ds2).length : ℚ) ≤ (ds1.length : ℚ) := by
        exact_mod_cast match_descriptors_length_le ds1 ds2
      have htq : (0 : ℚ) < ((min ds1.length ds2.length : ℕ) : ℚ) := by
        have : 0 < min ds1.length ds2.length := Nat.pos_of_ne_zero ht
        exact_mod_cast this
      rw [div_mul_eq_mul_div, mul_comm, mul_div_assoc, mul_div_assoc]
      gcongr
  · intro hle
    unfold orbScoreOfDescriptors
    simp only
    split
    · norm_num
    · rename_i ht
      have hmin : min ds1.length ds2.length = ds1.length := min_eq_left hle
      have hm : ((match_descriptors ds1 ds2).length : ℚ) ≤
          ((min ds1.length ds2.length : ℕ) : ℚ) := by
        rw [hmin]
        exact_mod_cast match_descriptors_length_le ds1 ds2
      have htq : (0 : ℚ) < ((min ds1.length ds2.length : ℕ) : ℚ) := by
        have : 0 < min ds1.length ds2.length := Nat.pos_of_ne_zero ht
        exact_mod_cast this
      have : ((match_descriptors ds1 ds2).length : ℚ) /
          ((min ds1.length ds2.length : ℕ) : ℚ) ≤ 1 := (div_le_one htq).2 hm
      nlinarith

theorem similarity_score_range_witness :
    (0 ≤ calculate_similarity "01" "11" .average ∧
      calculate_similarity "01" "11" .average ≤ 100) ∧
    orbScoreOfDescriptors [] [dZero] = 0 ∧
    orbScoreOfDescriptors [dZero] [dZero] ≤ 100 :=
  ⟨(similarity_score_range .average "01" "11" [] [dZero]).1 (by decide) (by decide),
   (similarity_score_range .average "01" "11" [] [dZero]).2.1 (Or.inl rfl),
   (similarity_score_range .average "01" "11" [dZero] [dZero]).2.2.2.2 (by decide)⟩

instance : IsTotal (ℚ × ℕ) byFstLe := ⟨fun a b => le_total a.1 b.1⟩

instance : IsTrans (ℚ × ℕ) byFstLe := ⟨fun _ _ _ => le_trans⟩

theorem sorted_pairs_map_fst (l : List (ℚ × ℕ)) :
    (List.insertionSort byFstLe l).map Prod.fst =
      List.insertionSort (· ≤ ·) (l.map Prod.fst) := by
  apply List.eq_of_perm_of_sorted (r := (· ≤ · : ℚ → ℚ → Prop))
  · exact ((List.perm_insertionSort byFstLe l).map Prod.fst).trans
      (List.perm_insertionSort (· ≤ ·) (l.map Prod.fst)).symm
  · exact List.Pairwise.map Prod.fst (fun a b h => h)
      (List.sorted_insertionSort byFstLe l)
  · exact List.sorted_insertionSort (· ≤ ·) (l.map Prod.fst)

theorem getD_fst (l : List (ℚ × ℕ)) (i : ℕ) :
    (l.getD i (0, 0)).1 = (l.map Prod.fst).getD i 0 := by
  rcases h : l[i]? with - | p
  · rw [List.getD_eq_getElem?_getD, List.getD_eq_getElem?_getD, h,
      List.getElem?_map, h]
    rfl
  · rw [List.getD_eq_getElem?_getD, List.getD_eq_getElem?_getD, h,
      List.getElem?_map, h]
    rfl

theorem enum_swap_any (vals : List ℚ) (i : ℕ) (med : ℚ) :
    ((vals.enum.map (fun p => (p.2, p.1))).any
      (fun vi => vi.2 == i && decide (med < vi.1))) =
    (decide (i < vals.length) && decide (med < vals.getD i 0)) := by
  rw [Bool.eq_iff_iff]
  simp only [List.any_eq_true, List.mem_map, Bool.and_eq_true, beq_iff_eq,
    decide_eq_true_eq]
  constructor
  · rintro ⟨vi, ⟨⟨j, v⟩, hmem, rfl⟩, hj, hv⟩
    simp only at hj hv
    subst hj
    obtain ⟨hlt, hval⟩ := List.getElem?_eq_some_iff.1
      (List.mk_mem_enum_iff_getElem?.1 hmem)
    refine ⟨hlt, ?_⟩
    rwa [List.getD_eq_getElem _ _ hlt, hval]
  · rintro ⟨hi, hv⟩
    refine ⟨(vals.getD i 0, i), ⟨(i, vals.getD i 0), ?_, rfl⟩, rfl, hv⟩
    rw [List.mk_mem_enum_iff_getElem?]
    rw [List.getD_eq_getElem _ _ hi]
    exact List.getElem?_eq_getElem hi

theorem phashLowFreq_map_fst (dct : List (List ℚ)) :
    (phashLowFreq dct).map Prod.fst = phashCoeffs63 dct := by
  show ((phashCoeffs63 dct).enum.map (fun p => (p.2, p.1))).map Prod.fst = _
  rw [List.map_map]
  exact List.enum_map_snd (phashCoeffs63 dct)

/-- C4 amended: the core perceptual hash excludes the DC coefficient.
For every coefficient matrix, character `i` of the hash is '1' exactly
when `i < 63` and the row-major non-DC coefficient number `i` (i.e.
coefficient `i + 1` of the full 8x8 block) exceeds the median of the 63
non-DC coefficients (their 32nd smallest); bit 63 is always '0'. -/
theorem phash_core_excludes_dc (dct : List (List ℚ)) :
    calculate_phash_from_dct dct =
      String.mk ((List.range 64).map (fun i =>
        if i < 63 ∧ phashMedian63 dct < (phashCoeffs63 dct).getD i 0
        then '1' else '0')) := by
  have hclen : (phashCoeffs63 dct).length = 63 := by
    simp only [phashCoeffs63, List.length_map]
    rfl
  have hlen : (phashLowFreq dct).length = 63 := by
    show (((phashCoeffs63 dct).enum.map (fun p => (p.2, p.1))).length) = 63
    simp [List.enum_length, hclen]
  have hmed : ((List.insertionSort byFstLe (phashLowFreq dct)).getD
      ((phashLowFreq dct).length / 2) (0, 0)).1 = phashMedian63 dct := by
    rw [hlen, getD_fst, sorted_pairs_map_fst, phashLowFreq_map_fst]
    rfl
  show String.mk ((List.range 64).map (fun i =>
      if (List.insertionSort byFstLe (phashLowFreq dct)).any
        (fun vi => vi.2 == i &&
          decide ((((List.insertionSort byFstLe (phashLowFreq dct)).getD
            ((phashLowFreq dct).length / 2) (0, 0)).1) < vi.1))
      then '1' else '0')) = _
  rw [hmed]
  refine congrArg String.mk ?_
  apply List.map_congr_left
  intro i hi
  have hany : ((List.insertionSort byFstLe (phashLowFreq dct)).any
      (fun vi => vi.2 == i && decide (phashMedian63 dct < vi.1))) =
      ((phashLowFreq dct).any
        (fun vi => vi.2 == i && decide (phashMedian63 dct < vi.1))) := by
    rw [Bool.eq_iff_iff]
    simp only [List.any_eq_true]
    constructor
    · rintro ⟨x, hx, hpx⟩
      exact ⟨x, (List.perm_insertionSort byFstLe _).mem_iff.1 hx, hpx⟩
    · rintro ⟨x, hx, hpx⟩
      exact ⟨x, (List.perm_insertionSort byFstLe _).mem_iff.2 hx, hpx⟩
  rw [hany]
  rw [show (phashLowFreq dct).any
        (fun vi => vi.2 == i && decide (phashMedian63 dct < vi.1)) =
      ((phashCoeffs63 dct).enum.map (fun p => (p.2, p.1))).any
        (fun vi => vi.2 == i && decide (phashMedian63 dct < vi.1)) from rfl]
  rw [enum_swap_any, hclen]
  rcases Nat.lt_or_ge i 63 with hi63 | hi63
  · simp [hi63]
  · have : ¬ i < 63 := by omega
    simp [this]

/-- C4 counterexample: on a coefficient matrix whose DC entry dominates
(the thresholding input of a near-constant bright image) the code's
hash is all zeros -- the DC coefficient is skipped and the remaining 63
coefficients all equal their median -- while the hash described by the
claim (all 64 coefficients, median of the 64) sets bit 0. -/
theorem phash_core_differs_from_spec :
    calculate_phash_from_dct dctDcOnly ≠ phashSpecFromDct dctDcOnly := by
  decide

theorem extLen_le_maxRun (b : Bool) (cs : List PtClass) :
    extLen b cs ≤ maxRun cs := by
  induction cs with
  | nil => exact le_refl 0
  | cons c cs ih =>
      unfold maxRun extLen
      by_cases h : c = runClassOf b
      · subst h
        cases b <;> simp [uniPref, runClassOf]
      · simp [h]

theorem fold_run_decision (cs : List PtClass) :
    ∀ (cnt : ℕ) (isB : Bool) (mx : ℕ),
      (let st := cs.foldl fastRunStep (cnt, isB, mx)
       max st.2.2 st.1) = max mx (max (cnt + extLen isB cs) (maxRun cs)) := by
  induction cs with
  | nil => intro cnt isB mx; simp [extLen, maxRun, Nat.max_comm]
  | cons c cs ih =>
      intro cnt isB mx
      cases c with
      | bright =>
          cases isB with
          | true =>
              show (let st := cs.foldl fastRunStep (cnt + 1, true, mx)
                    max st.2.2 st.1) = _
              rw [ih]
              have := extLen_le_maxRun true cs
              simp [extLen, uniPref, maxRun, runClassOf]
              omega
          | false =>
              show (let st := cs.foldl fastRunStep (1, true, max mx cnt)
                    max st.2.2 st.1) = _
              rw [ih]
              have := extLen_le_maxRun true cs
              simp [extLen, uniPref, maxRun, runClassOf]
              omega
      | dark =>
          cases isB with
          | true =>
              show (let st := cs.foldl fastRunStep (1, false, max mx cnt)
                    max st.2.2 st.1) = _
              rw [ih]
              have := extLen_le_maxRun false cs
              simp [extLen, uniPref, maxRun, runClassOf]
              omega
          | false =>
              show (let st := cs.foldl fastRunStep (cnt + 1, false, mx)
                    max st.2.2 st.1) = _
              rw [ih]
              have := extLen_le_maxRun false cs
              simp [extLen, uniPref, maxRun, runClassOf]
              omega
      | mid =>
          show (let st := cs.foldl fastRunStep (0, isB, max mx cnt)
                max st.2.2 st.1) = _
          rw [ih]
          have h1 := extLen_le_maxRun isB cs
          have h2 : ¬ (PtClass.mid = if isB then PtClass.bright else PtClass.dark) := by
            cases isB <;> simp
          simp [extLen, uniPref, maxRun, runClassOf, h2]
          omega

theorem fastMaxConsecutive_eq_maxRun (cs : List PtClass) :
    fastMaxConsecutive cs = maxRun cs := by
  unfold fastMaxConsecutive
  rw [fold_run_decision cs 0 false 0]
  have := extLen_le_maxRun false cs
  omega

theorem mid_ne_runClassOf (b : Bool) : PtClass.mid ≠ runClassOf b := by
  cases b <;> simp [runClassOf]

theorem extLen_ge_iff (b : Bool) : ∀ (cs : List PtClass) (k : ℕ),
    k ≤ extLen b cs ↔ ∀ j < k, cs.getD j .mid = runClassOf b := by
  intro cs
  induction cs with
  | nil =>
      intro k
      cases k with
      | zero => simp [extLen]
      | succ k =>
          simp only [extLen, List.getD]
          constructor
          · omega
          · intro h
            exact absurd (h 0 (by omega)) (by simpa using mid_ne_runClassOf b)
  | cons c cs ih =>
      intro k
      cases k with
      | zero => simp
      | succ k =>
          unfold extLen
          by_cases h : c = runClassOf b
          · rw [if_pos h]
            constructor
            · intro hk j hj
              cases j with
              | zero => simpa using h
              | succ j =>
                  simp only [List.getD_cons_succ]
                  exact ((ih k).1 (by omega)) j (by omega)
            · intro hall
              have : ∀ j < k, cs.getD j .mid = runClassOf b := by
                intro j hj
                have := hall (j + 1) (by omega)
                simpa using this
              have := (ih k).2 this
              omega
          · rw [if_neg h]
            constructor
            · omega
            · intro hall
              exact absurd (by simpa using hall 0 (by omega)) h

theorem maxRun_ge_iff : ∀ (cs : List PtClass) (m : ℕ), 1 ≤ m →
    (m ≤ maxRun cs ↔ ∃ s,
      (∀ k < m, cs.getD (s + k) .mid = .bright) ∨
      (∀ k < m, cs.getD (s + k) .mid = .dark)) := by
  intro cs
  induction cs with
  | nil =>
      intro m hm
      simp only [maxRun]
      constructor
      · omega
      · rintro ⟨s, h | h⟩
        · have := h 0 (by omega)
          simp [List.getD] at this
        · have := h 0 (by omega)
          simp [List.getD] at this
  | cons c cs ih =>
      intro m hm
      have hiff := ih m hm
      constructor
      · intro hmax
        rcases le_or_lt m (uniPref (c :: cs)) with hu | hu
        · -- run at position 0
          refine ⟨0, ?_⟩
          cases c with
          | mid => simp [uniPref] at hu; omega
          | bright =>
              left
              intro k hk
              cases k with
              | zero => simp
              | succ k =>
                  simp only [Nat.zero_add, List.getD_cons_succ]
                  have : k ≤ extLen true cs := by
                    simp only [uniPref] at hu; omega
                  have hrun := (extLen_ge_iff true cs (m - 1)).1 (by
                    simp only [uniPref] at hu; omega)
                  have := hrun k (by omega)
                  simpa [runClassOf] using this
          | dark =>
              right
              intro k hk
              cases k with
              | zero => simp
              | succ k =>
                  simp only [Nat.zero_add, List.getD_cons_succ]
                  have hrun := (extLen_ge_iff false cs (m - 1)).1 (by
                    simp only [uniPref] at hu; omega)
                  have := hrun k (by omega)
                  simpa [runClassOf] using this
        · -- run strictly inside cs
          have : m ≤ maxRun cs := by
            have : maxRun (c :: cs) = max (uniPref (c :: cs)) (maxRun cs) := rfl
            omega
          obtain ⟨s, hs⟩ := hiff.1 this
          refine ⟨s + 1, ?_⟩
          rcases hs with hs | hs
          · left
            intro k hk
            have := hs k hk
            simpa [Nat.add_right_comm s 1 k] using this
          · right
            intro k hk
            have := hs k hk
            simpa [Nat.add_right_comm s 1 k] using this
      · rintro ⟨s, hs⟩
        cases s with
        | zero =>
            have hup : m ≤ uniPref (c :: cs) := by
              rcases hs with hs | hs
              · have hc : c = PtClass.bright := by simpa using hs 0 (by omega)
                subst hc
                simp only [uniPref]
                have : ∀ j < m - 1, cs.getD j .mid = runClassOf true := by
                  intro j hj
                  have := hs (j + 1) (by omega)
                  simpa [runClassOf] using this
                have := (extLen_ge_iff true cs (m - 1)).2 this
                omega
              · have hc : c = PtClass.dark := by simpa using hs 0 (by omega)
                subst hc
                simp only [uniPref]
                have : ∀ j < m - 1, cs.getD j .mid = runClassOf false := by
                  intro j hj
                  have := hs (j + 1) (by omega)
                  simpa [runClassOf] using this
                have := (extLen_ge_iff false cs (m - 1)).2 this
                omega
            have : maxRun (c :: cs) = max (uniPref (c :: cs)) (maxRun cs) := rfl
            omega
        | succ s =>
            have : m ≤ maxRun cs := by
              refine hiff.2 ⟨s, ?_⟩
              rcases hs with hs | hs
              · left
                intro k hk
                have := hs k hk
                simpa [Nat.add_right_comm s 1 k] using this
              · right
                intro k hk
                have := hs k hk
                simpa [Nat.add_right_comm s 1 k] using this
            have : maxRun (c :: cs) = max (uniPref (c :: cs)) (maxRun cs) := rfl
            omega

theorem hasStraightRun_iff_exists (cs : List PtClass) (m : ℕ) (hm : 1 ≤ m) :
    hasStraightRun cs m ↔ ∃ s,
      (∀ k < m, cs.getD (s + k) .mid = .bright) ∨
      (∀ k < m, cs.getD (s + k) .mid = .dark) := by
  constructor
  · rintro ⟨s, -, hs⟩
    exact ⟨s, hs⟩
  · rintro ⟨s, hs⟩
    refine ⟨s, ?_, hs⟩
    by_contra hlen
    have hout : cs.length ≤ s + (m - 1) := by omega
    have hdef : cs.getD (s + (m - 1)) .mid = .mid := List.getD_eq_default _ _ hout
    rcases hs with hs | hs
    · have := hs (m - 1) (by omega)
      rw [hdef] at this
      exact absurd this (by decide)
    · have := hs (m - 1) (by omega)
      rw [hdef] at this
      exact absurd this (by decide)

/-- C8 amended: at a candidate pixel (one passing the 3-of-4 compass
pretest) the detector accepts a corner exactly when at least 12
contiguous ring points -- contiguity measured along the fixed ring
order without wrap-around -- are all brighter than `c + T` or all
darker than `c - T`.  (The spec's criterion, at least 9 contiguous
points with wrap-around, is refuted by `fast_corner_not_9_wrap`.) -/
theorem fast_corner_iff_12_contiguous (img : GrayImage) (x y T : ℕ)
    (hpre : fastPretest img x y T = true) :
    fastIsCornerAt img x y T = true ↔
      hasStraightRun (ringClasses img x y T) 12 := by
  unfold fastIsCornerAt
  rw [hpre, Bool.true_and, decide_eq_true_eq]
  rw [fastMaxConsecutive_eq_maxRun]
  rw [maxRun_ge_iff _ 12 (by omega)]
  exact (hasStraightRun_iff_exists _ 12 (by omega)).symm

theorem fast_corner_iff_12_contiguous_witness :
    fastIsCornerAt img7run12 3 3 20 = true :=
  (fast_corner_iff_12_contiguous img7run12 3 3 20 (by decide)).2 (by decide)

/-- C8 counterexample: a candidate pixel (compass pretest passes) with
exactly 9 contiguous ring points brighter than `c + T` -- a corner
under the spec's FAST-9 wrap-around criterion -- that the code rejects:
the code requires 12 contiguous points and never joins runs across the
ring's start and end. -/
theorem fast_corner_not_9_wrap :
    fastPretest img7ring9 3 3 20 = true ∧
    hasWrapRun (ringClasses img7ring9 3 3 20) 9 ∧
    fastIsCornerAt img7ring9 3 3 20 = false :=
  ⟨by decide, by decide, by decide⟩

/-- C10: the implicit safety claim fails: the `u8` expressions
`center_val + threshold` and `center_val - threshold` in
`detect_fast_keypoints` are unguarded, so any examined center pixel
below `T` underflows the subtraction (and any above `255 - T` overflows
the addition).  A 12x12 all-black image already violates the claimed
invariant at its first examined pixel (3,3): `0 - 20` wraps (release)
or panics (debug). -/
theorem fast_u8_guard_unsafe : ¬ fastU8Safe zeroImg12 20 := by decide

theorem isRootP_of_ge (p : List ℕ) (x : ℕ) (h : p.length ≤ x) : isRootP p x := by
  unfold isRootP stepP
  exact List.getD_eq_default _ _ h

theorem iterate_of_isRootP (p : List ℕ) (r : ℕ) (h : isRootP p r) (k : ℕ) :
    (stepP p)^[k] r = r :=
  Function.iterate_fixed h k

theorem reaches_unique (p : List ℕ) (y r r' : ℕ)
    (h1 : reaches p y r) (h2 : reaches p y r') : r = r' := by
  obtain ⟨a, ha, hra⟩ := h1
  obtain ⟨b, hb, hrb⟩ := h2
  rcases le_total a b with hab | hab
  · have : (stepP p)^[b] y = r := by
      have hsplit : b = (b - a) + a := by omega
      rw [hsplit, Function.iterate_add_apply, ha, iterate_of_isRootP p r hra]
    rw [← this, hb]
  · have : (stepP p)^[a] y = r' := by
      have hsplit : a = (a - b) + b := by omega
      rw [hsplit, Function.iterate_add_apply, hb, iterate_of_isRootP p r' hrb]
    rw [← ha, this]

theorem findRootAux_of_isRoot (p : List ℕ) (fuel x : ℕ) (h : isRootP p x) :
    findRootAux p fuel x = x := by
  cases fuel with
  | zero => rfl
  | succ fuel =>
      have hx : p.getD x x = x := h
      unfold findRootAux
      simp only [hx, if_pos]

theorem findRootAux_eq_of_reach : ∀ (k : ℕ) (p : List ℕ) (fuel y : ℕ),
    k ≤ fuel → isRootP p ((stepP p)^[k] y) →
    findRootAux p fuel y = (stepP p)^[k] y := by
  intro k
  induction k with
  | zero =>
      intro p fuel y _ hroot
      simpa using findRootAux_of_isRoot p fuel y (by simpa using hroot)
  | succ k ih =>
      intro p fuel y hk hroot
      by_cases hy : isRootP p y
      · rw [iterate_of_isRootP p y hy] at hroot ⊢
        exact findRootAux_of_isRoot p fuel y hy
      · obtain ⟨f, rfl⟩ : ∃ f, fuel = f + 1 := ⟨fuel - 1, by omega⟩
        rw [Function.iterate_succ_apply] at hroot ⊢
        unfold findRootAux
        rw [if_neg (by simpa [isRootP, stepP] using hy)]
        exact ih p f (p.getD y y) (by omega) hroot

theorem stepP_lt (p : List ℕ) (hb : ∀ i < p.length, stepP p i < p.length)
    (y : ℕ) (hy : y < p.length) (k : ℕ) : (stepP p)^[k] y < p.length := by
  induction k generalizing y with
  | zero => simpa using hy
  | succ k ih =>
      rw [Function.iterate_succ_apply]
      exact ih (stepP p y) (hb y hy)

theorem iterate_period (p : List ℕ) (y a d : ℕ)
    (hper : (stepP p)^[a + d] y = (stepP p)^[a] y) :
    ∀ t, (stepP p)^[a + t * d] y = (stepP p)^[a] y := by
  intro t
  induction t with
  | zero => simp
  | succ t ih =>
      have : a + (t + 1) * d = d + (a + t * d) := by ring
      rw [this, Function.iterate_add_apply, ih]
      have : (stepP p)^[d] ((stepP p)^[a] y) = (stepP p)^[d + a] y := by
        rw [Function.iterate_add_apply]
      rw [this]
      rw [show d + a = a + d by ring, hper]

theorem reach_fast (p : List ℕ) (hb : ∀ i < p.length, stepP p i < p.length)
    (y r : ℕ) (hy : y < p.length) (hr : reaches p y r) :
    ∃ k ≤ p.length - 1, (stepP p)^[k] y = r := by
  obtain ⟨m, hm, hroot⟩ := hr
  have hdec : ∀ k, Decidable ((stepP p)^[k] y = r) := fun k => Nat.decEq _ _
  have hex : ∃ k, (stepP p)^[k] y = r := ⟨m, hm⟩
  classical
  set k0 := Nat.find hex with hk0
  have hk0spec : (stepP p)^[k0] y = r := Nat.find_spec hex
  have hk0min : ∀ j < k0, (stepP p)^[j] y ≠ r := fun j hj => Nat.find_min hex hj
  refine ⟨k0, ?_, hk0spec⟩
  by_contra hbig
  push_neg at hbig
  -- the k0 + 1 values (stepP p)^[i] y for i ≤ k0 are pairwise distinct
  have hinj : ∀ a b, a < b → b ≤ k0 → (stepP p)^[a] y ≠ (stepP p)^[b] y := by
    intro a b hab hbk habeq
    -- a period of length b - a starting at a; pump past m to reach r
    have hper : ∀ t, (stepP p)^[a + t * (b - a)] y = (stepP p)^[a] y := by
      apply iterate_period
      rw [show a + (b - a) = b by omega]
      exact habeq.symm
    have hstab : ∀ j, m ≤ j → (stepP p)^[j] y = r := by
      intro j hj
      rw [show j = (j - m) + m by omega, Function.iterate_add_apply, hm,
        iterate_of_isRootP p r hroot]
    have hbig2 : a + (m + 1) * (b - a) ≥ m := by
      have h1 : (m + 1) * 1 ≤ (m + 1) * (b - a) :=
        Nat.mul_le_mul_left _ (by omega)
      omega
    have : (stepP p)^[a] y = r := by
      rw [← hper (m + 1)]
      exact hstab _ hbig2
    exact hk0min a (by omega) this
  -- pigeonhole: k0 + 1 distinct values below p.length
  have hlt : ∀ i, i ≤ k0 → (stepP p)^[i] y < p.length := fun i _ =>
    stepP_lt p hb y hy i
  have hcard : (Finset.range (k0 + 1)).card ≤ (Finset.range p.length).card := by
    have himg : Finset.image (fun i => (stepP p)^[i] y)
        (Finset.range (k0 + 1)) ⊆ Finset.range p.length := by
      intro v hv
      obtain ⟨i, hi, rfl⟩ := Finset.mem_image.1 hv
      exact Finset.mem_range.2 (hlt i (by simpa [Nat.lt_succ_iff] using hi))
    calc (Finset.range (k0 + 1)).card
        = (Finset.image (fun i => (stepP p)^[i] y) (Finset.range (k0 + 1))).card := by
          rw [Finset.card_image_of_injOn]
          intro a ha b hbmem hab
          by_contra hne
          rcases Nat.lt_or_ge a b with h | h
          · exact hinj a b h (by simpa [Nat.lt_succ_iff] using hbmem) hab
          · exact hinj b a (by omega) (by simpa [Nat.lt_succ_iff] using ha) hab.symm
      _ ≤ (Finset.range p.length).card := Finset.card_le_card himg
  simp only [Finset.card_range] at hcard
  omega

theorem stepP_of_ge (p : List ℕ) (y : ℕ) (h : p.length ≤ y) : stepP p y = y :=
  List.getD_eq_default _ _ h

theorem rootD_eq_of_reaches (p : List ℕ) (hwf : parentWF p) (y r : ℕ)
    (hr : reaches p y r) : rootD p y = r := by
  obtain ⟨m, hm, hroot⟩ := hr
  rcases Nat.lt_or_ge y p.length with hy | hy
  · obtain ⟨k, hk, hkr⟩ := reach_fast p hwf.1 y r hy ⟨m, hm, hroot⟩
    unfold rootD
    rw [findRootAux_eq_of_reach k p p.length y (by omega)
      (by rw [hkr]; exact hroot), hkr]
  · have hyroot : isRootP p y := isRootP_of_ge p y hy
    have hry : r = y :=
      reaches_unique p y r y ⟨m, hm, hroot⟩ ⟨0, rfl, hyroot⟩
    rw [hry]
    exact findRootAux_of_isRoot p p.length y hyroot

theorem rootD_reaches (p : List ℕ) (hwf : parentWF p) (y : ℕ) :
    reaches p y (rootD p y) := by
  obtain ⟨r, hr⟩ := hwf.2 y
  rwa [rootD_eq_of_reaches p hwf y r hr]

theorem rootD_isRoot (p : List ℕ) (hwf : parentWF p) (y : ℕ) :
    isRootP p (rootD p y) :=
  (rootD_reaches p hwf y).choose_spec.2

theorem rootD_of_isRoot (p : List ℕ) (hwf : parentWF p) (y : ℕ)
    (h : isRootP p y) : rootD p y = y :=
  rootD_eq_of_reaches p hwf y y ⟨0, rfl, h⟩

theorem rootD_lt (p : List ℕ) (hwf : parentWF p) (y : ℕ)
    (hy : y < p.length) : rootD p y < p.length := by
  obtain ⟨k, hk, -⟩ := rootD_reaches p hwf y
  rw [← hk]
  exact stepP_lt p hwf.1 y hy k

theorem reaches_step (p : List ℕ) (y r : ℕ) (hy : ¬ isRootP p y) :
    reaches p y r ↔ reaches p (stepP p y) r := by
  constructor
  · rintro ⟨k, hk, hroot⟩
    cases k with
    | zero =>
        simp only [Function.iterate_zero_apply] at hk
        exact absurd (show isRootP p y by rw [hk]; exact hroot) hy
    | succ k =>
        rw [Function.iterate_succ_apply] at hk
        exact ⟨k, hk, hroot⟩
  · rintro ⟨k, hk, hroot⟩
    exact ⟨k + 1, by rw [Function.iterate_succ_apply]; exact hk, hroot⟩

theorem rootD_step (p : List ℕ) (hwf : parentWF p) (y : ℕ)
    (hy : ¬ isRootP p y) : rootD p (stepP p y) = rootD p y := by
  have h1 := rootD_reaches p hwf y
  have h2 := (reaches_step p y (rootD p y) hy).1 h1
  exact rootD_eq_of_reaches p hwf _ _ h2

theorem stepP_set_ne (p : List ℕ) (z r w : ℕ) (h : w ≠ z) :
    stepP (p.set z r) w = stepP p w := by
  unfold stepP
  rw [List.getD_eq_getElem?_getD, List.getD_eq_getElem?_getD,
    List.getElem?_set_ne (fun he => h he.symm)]

theorem stepP_set_self (p : List ℕ) (z r : ℕ) (h : z < p.length) :
    stepP (p.set z r) z = r := by
  unfold stepP
  rw [List.getD_eq_getElem?_getD, List.getElem?_set_self]
  · rfl
  · exact h

theorem isRootP_set_iff (p : List ℕ) (z r w : ℕ) (h : w ≠ z) :
    isRootP (p.set z r) w ↔ isRootP p w := by
  unfold isRootP
  rw [stepP_set_ne p z r w h]

/-- Path-transfer for a compression write: pointing a non-root `z`
directly at its root `r` preserves which root every chain reaches. -/
theorem reaches_set_compress (p : List ℕ) (z r : ℕ)
    (hz : ¬ isRootP p z) (hzr : reaches p z r) :
    ∀ k y r0, (stepP p)^[k] y = r0 → isRootP p r0 →
      reaches (p.set z r) y r0 := by
  have hrroot : isRootP p r := hzr.choose_spec.2
  have hrz : r ≠ z := fun he => hz (he ▸ hrroot)
  have hzlen : z < p.length := by
    by_contra hge
    exact hz (isRootP_of_ge p z (by omega))
  intro k
  induction k with
  | zero =>
      intro y r0 hy hroot
      simp only [Function.iterate_zero_apply] at hy
      subst hy
      have hyz : y ≠ z := fun he => hz (he ▸ hroot)
      exact ⟨0, rfl, (isRootP_set_iff p z r y hyz).2 hroot⟩
  | succ k ih =>
      intro y r0 hy hroot
      by_cases hyr : isRootP p y
      · rw [iterate_of_isRootP p y hyr] at hy
        subst hy
        have hyz : y ≠ z := fun he => hz (he ▸ hyr)
        exact ⟨0, rfl, (isRootP_set_iff p z r y hyz).2 hroot⟩
      · by_cases hyz : y = z
        · have hyreach : reaches p y r0 := ⟨k + 1, hy, hroot⟩
          have hzreach : reaches p y r := by rw [hyz]; exact hzr
          have hr0 : r0 = r := reaches_unique p y r0 r hyreach hzreach
          refine ⟨1, ?_, ?_⟩
          · simp only [Function.iterate_one]
            rw [hyz, stepP_set_self p z r hzlen, hr0]
          · rw [hr0]
            exact (isRootP_set_iff p z r r hrz).2 hrroot
        · rw [Function.iterate_succ_apply] at hy
          obtain ⟨j, hj, hjroot⟩ := ih (stepP p y) r0 hy hroot
          exact ⟨j + 1, by
            rw [Function.iterate_succ_apply, stepP_set_ne p z r y hyz]
            exact hj, hjroot⟩

theorem parentWF_set_compress (p : List ℕ) (hwf : parentWF p) (z r : ℕ)
    (hz : ¬ isRootP p z) (hzr : reaches p z r) :
    parentWF (p.set z r) ∧ ∀ y, rootD (p.set z r) y = rootD p y := by
  have hrroot : isRootP p r := hzr.choose_spec.2
  have hzlen : z < p.length := by
    by_contra hge
    exact hz (isRootP_of_ge p z (by omega))
  have hrlt : r < p.length := by
    have := rootD_eq_of_reaches p hwf z r hzr
    rw [← this]
    exact rootD_lt p hwf z hzlen
  have htrans : ∀ y, reaches (p.set z r) y (rootD p y) := by
    intro y
    obtain ⟨k, hk, hroot⟩ := rootD_reaches p hwf y
    exact reaches_set_compress p z r hz hzr k y (rootD p y) hk hroot
  have hwf' : parentWF (p.set z r) := by
    constructor
    · intro i hi
      rw [List.length_set] at hi ⊢
      by_cases hiz : i = z
      · rw [hiz, stepP_set_self p z r hzlen]
        exact hrlt
      · rw [stepP_set_ne p z r i hiz]
        exact hwf.1 i hi
    · intro y
      exact ⟨rootD p y, htrans y⟩
  refine ⟨hwf', fun y => ?_⟩
  exact rootD_eq_of_reaches _ hwf' y _ (htrans y)

theorem compressAux_ok : ∀ (fuel : ℕ) (p : List ℕ) (r x : ℕ),
    parentWF p → rootD p x = r →
    parentWF (compressAux fuel p r x) ∧
    (∀ y, rootD (compressAux fuel p r x) y = rootD p y) ∧
    (compressAux fuel p r x).length = p.length := by
  intro fuel
  induction fuel with
  | zero => exact fun p r x hwf _ => ⟨hwf, fun _ => rfl, rfl⟩
  | succ fuel ih =>
      intro p r x hwf hr
      unfold compressAux
      by_cases hxr : x = r
      · rw [if_pos hxr]
        exact ⟨hwf, fun _ => rfl, rfl⟩
      · rw [if_neg hxr]
        have hxroot : ¬ isRootP p x := by
          intro hroot
          exact hxr (by rw [← hr, rootD_of_isRoot p hwf x hroot])
        have hxreach : reaches p x r := by
          rw [← hr]
          exact rootD_reaches p hwf x
        obtain ⟨hwf', hroots'⟩ := parentWF_set_compress p hwf x r hxroot hxreach
        have hnext : rootD (p.set x r) (p.getD x x) = r := by
          rw [hroots' (p.getD x x)]
          rw [show p.getD x x = stepP p x from rfl]
          rw [rootD_step p hwf x hxroot, hr]
        obtain ⟨hwf2, hroots2, hlen2⟩ := ih (p.set x r) r (p.getD x x) hwf' hnext
        refine ⟨hwf2, fun y => ?_, by rw [hlen2, List.length_set]⟩
        rw [hroots2 y, hroots' y]

theorem find_ok (s : DisjointSet) (x : ℕ) (hwf : parentWF s.parent) :
    (s.find x).1 = rootD s.parent x ∧
    parentWF (s.find x).2.parent ∧
    (∀ y, rootD (s.find x).2.parent y = rootD s.parent y) ∧
    (s.find x).2.parent.length = s.parent.length ∧
    (s.find x).2.rank = s.rank ∧ (s.find x).2.size = s.size := by
  unfold DisjointSet.find
  obtain ⟨hwf', hroots', hlen'⟩ :=
    compressAux_ok s.parent.length s.parent (findRootAux s.parent s.parent.length x) x hwf rfl
  exact ⟨rfl, hwf', hroots', hlen', rfl, rfl⟩

/-- Path-transfer for a link write: pointing the root `b` at the root
`a` redirects exactly the chains that reached `b`. -/
theorem reaches_set_link (p : List ℕ) (a b : ℕ)
    (ha : isRootP p a) (hb : isRootP p b) (hab : a ≠ b)
    (hblen : b < p.length) :
    ∀ k y r0, (stepP p)^[k] y = r0 → isRootP p r0 →
      reaches (p.set b a) y (if r0 = b then a else r0) := by
  have haroot' : isRootP (p.set b a) a :=
    (isRootP_set_iff p b a a hab).2 ha
  intro k
  induction k with
  | zero =>
      intro y r0 hy hroot
      simp only [Function.iterate_zero_apply] at hy
      subst hy
      by_cases hyb : y = b
      · rw [if_pos hyb]
        refine ⟨1, ?_, haroot'⟩
        simp only [Function.iterate_one]
        rw [hyb, stepP_set_self p b a hblen]
      · rw [if_neg hyb]
        exact ⟨0, rfl, (isRootP_set_iff p b a y hyb).2 hroot⟩
  | succ k ih =>
      intro y r0 hy hroot
      by_cases hyr : isRootP p y
      · rw [iterate_of_isRootP p y hyr] at hy
        subst hy
        by_cases hyb : y = b
        · rw [if_pos hyb]
          refine ⟨1, ?_, haroot'⟩
          simp only [Function.iterate_one]
          rw [hyb, stepP_set_self p b a hblen]
        · rw [if_neg hyb]
          exact ⟨0, rfl, (isRootP_set_iff p b a y hyb).2 hyr⟩
      · have hyb : y ≠ b := fun he => hyr (he ▸ hb)
        rw [Function.iterate_succ_apply] at hy
        obtain ⟨j, hj, hjroot⟩ := ih (stepP p y) r0 hy hroot
        exact ⟨j + 1, by
          rw [Function.iterate_succ_apply, stepP_set_ne p b a y hyb]
          exact hj, hjroot⟩

theorem parentWF_set_link (p : List ℕ) (hwf : parentWF p) (a b : ℕ)
    (ha : isRootP p a) (hb : isRootP p b) (hab : a ≠ b)
    (halen : a < p.length) (hblen : b < p.length) :
    parentWF (p.set b a) ∧
    ∀ y, rootD (p.set b a) y = (if rootD p y = b then a else rootD p y) := by
  have htrans : ∀ y, reaches (p.set b a) y
      (if rootD p y = b then a else rootD p y) := by
    intro y
    obtain ⟨k, hk, hroot⟩ := rootD_reaches p hwf y
    exact reaches_set_link p a b ha hb hab hblen k y (rootD p y) hk hroot
  have hwf' : parentWF (p.set b a) := by
    constructor
    · intro i hi
      rw [List.length_set] at hi ⊢
      by_cases hib : i = b
      · rw [hib, stepP_set_self p b a hblen]
        exact halen
      · rw [stepP_set_ne p b a i hib]
        exact hwf.1 i hi
    · intro y
      exact ⟨_, htrans y⟩
  exact ⟨hwf', fun y => rootD_eq_of_reaches _ hwf' y _ (htrans y)⟩

theorem rootD_idem (p : List ℕ) (hwf : parentWF p) (y : ℕ) :
    rootD p (rootD p y) = rootD p y :=
  rootD_of_isRoot p hwf (rootD p y) (rootD_isRoot p hwf y)

theorem link_ite_iff (ra rb rx ry : ℕ) :
    ((if ra = ry then rx else ra) = (if rb = ry then rx else rb)) ↔
    (ra = rb ∨ (ra = rx ∧ rb = ry) ∨ (ra = ry ∧ rb = rx)) := by
  split_ifs <;> omega

theorem union_ok (s : DisjointSet) (x y : ℕ) (hwf : parentWF s.parent)
    (hx : x < s.parent.length) (hy : y < s.parent.length) :
    parentWF (s.union x y).parent ∧
    (s.union x y).parent.length = s.parent.length ∧
    ∀ a b, rootD (s.union x y).parent a = rootD (s.union x y).parent b ↔
      (rootD s.parent a = rootD s.parent b ∨
       (rootD s.parent a = rootD s.parent x ∧ rootD s.parent b = rootD s.parent y) ∨
       (rootD s.parent a = rootD s.parent y ∧ rootD s.parent b = rootD s.parent x)) := by
  obtain ⟨hfx1, hwf1, hroots1, hlen1, -, -⟩ := find_ok s x hwf
  obtain ⟨hfy1, hwf2, hroots2, hlen2, -, -⟩ := find_ok (s.find x).2 y hwf1
  set rX := rootD s.parent x with hrXdef
  set rY := rootD s.parent y with hrYdef
  have hfy1' : ((s.find x).2.find y).1 = rY := by rw [hfy1, hroots1]
  have hroots12 : ∀ t, rootD ((s.find x).2.find y).2.parent t = rootD s.parent t := by
    intro t
    rw [hroots2, hroots1]
  have hlen12 : ((s.find x).2.find y).2.parent.length = s.parent.length := by
    rw [hlen2, hlen1]
  unfold DisjointSet.union
  dsimp only
  rw [hfx1, hfy1']
  by_cases hXY : rX = rY
  · rw [if_pos hXY]
    refine ⟨hwf2, hlen12, fun a b => ?_⟩
    rw [hroots12, hroots12]
    constructor
    · exact fun h => Or.inl h
    · rintro (h | ⟨h1, h2⟩ | ⟨h1, h2⟩) <;> omega
  · rw [if_neg hXY]
    -- both roots of the doubly-compressed parent vector
    have hrootX : isRootP ((s.find x).2.find y).2.parent rX := by
      have : rootD ((s.find x).2.find y).2.parent rX = rX := by
        rw [hroots12, hrXdef, rootD_idem s.parent hwf x]
      rw [← this]
      exact rootD_isRoot _ hwf2 rX
    have hrootY : isRootP ((s.find x).2.find y).2.parent rY := by
      have : rootD ((s.find x).2.find y).2.parent rY = rY := by
        rw [hroots12, hrYdef, rootD_idem s.parent hwf y]
      rw [← this]
      exact rootD_isRoot _ hwf2 rY
    have hXlen : rX < ((s.find x).2.find y).2.parent.length := by
      rw [hlen12]
      exact rootD_lt s.parent hwf x hx
    have hYlen : rY < ((s.find x).2.find y).2.parent.length := by
      rw [hlen12]
      exact rootD_lt s.parent hwf y hy
    by_cases hsz : ((s.find x).2.find y).2.size.getD rX 0 <
        ((s.find x).2.find y).2.size.getD rY 0
    · rw [if_pos hsz, if_pos hsz]
      obtain ⟨hwf3, hroots3⟩ := parentWF_set_link ((s.find x).2.find y).2.parent
        hwf2 rY rX hrootY hrootX (fun h => hXY h.symm) hYlen hXlen
      have hparent : ∀ (c : DisjointSet), c.parent =
          ((s.find x).2.find y).2.parent.set rX rY →
          parentWF c.parent ∧ c.parent.length = s.parent.length ∧
          ∀ a b, rootD c.parent a = rootD c.parent b ↔
            (rootD s.parent a = rootD s.parent b ∨
             (rootD s.parent a = rX ∧ rootD s.parent b = rY) ∨
             (rootD s.parent a = rY ∧ rootD s.parent b = rX)) := by
        intro c hc
        rw [hc]
        refine ⟨hwf3, by rw [List.length_set, hlen12], fun a b => ?_⟩
        rw [hroots3 a, hroots3 b, hroots12 a, hroots12 b]
        rw [link_ite_iff]
        omega
      split
      · exact hparent _ rfl
      · exact hparent _ rfl
    · rw [if_neg hsz, if_neg hsz]
      obtain ⟨hwf3, hroots3⟩ := parentWF_set_link ((s.find x).2.find y).2.parent
        hwf2 rX rY hrootX hrootY hXY hXlen hYlen
      have hparent : ∀ (c : DisjointSet), c.parent =
          ((s.find x).2.find y).2.parent.set rY rX →
          parentWF c.parent ∧ c.parent.length = s.parent.length ∧
          ∀ a b, rootD c.parent a = rootD c.parent b ↔
            (rootD s.parent a = rootD s.parent b ∨
             (rootD s.parent a = rX ∧ rootD s.parent b = rY) ∨
             (rootD s.parent a = rY ∧ rootD s.parent b = rX)) := by
        intro c hc
        rw [hc]
        refine ⟨hwf3, by rw [List.length_set, hlen12], fun a b => ?_⟩
        rw [hroots3 a, hroots3 b, hroots12 a, hroots12 b]
        rw [link_ite_iff]
      split
      · exact hparent _ rfl
      · exact hparent _ rfl

theorem stepP_new (n y : ℕ) : stepP (DisjointSet.new n).parent y = y := by
  unfold stepP DisjointSet.new
  rcases Nat.lt_or_ge y n with h | h
  · rw [List.getD_eq_getElem?_getD]
    simp [List.getElem?_range h]
  · exact List.getD_eq_default _ _ (by simpa using h)

theorem parentWF_new (n : ℕ) : parentWF (DisjointSet.new n).parent := by
  constructor
  · intro i hi
    rw [stepP_new]
    simpa using hi
  · exact fun y => ⟨y, 0, rfl, stepP_new n y⟩

theorem rootD_new (n y : ℕ) : rootD (DisjointSet.new n).parent y = y :=
  rootD_of_isRoot _ (parentWF_new n) y (stepP_new n y)

theorem new_parent_length (n : ℕ) : (DisjointSet.new n).parent.length = n := by
  simp [DisjointSet.new]

/-- Extension of an equivalence closure by one generator pair. -/
theorem eqvGen_extend (r : ℕ → ℕ → Prop) (x y : ℕ)
    (hequiv : Equivalence r) (a b : ℕ) :
    Relation.EqvGen (fun u v => r u v ∨ (u = x ∧ v = y)) a b ↔
      (r a b ∨ (r a x ∧ r y b) ∨ (r a y ∧ r x b)) := by
  constructor
  · intro h
    induction h with
    | rel u v huv =>
        rcases huv with huv | ⟨rfl, rfl⟩
        · exact Or.inl huv
        · exact Or.inr (Or.inl ⟨hequiv.refl _, hequiv.refl _⟩)
    | refl u => exact Or.inl (hequiv.refl u)
    | symm u v _ ih =>
        rcases ih with h | ⟨h1, h2⟩ | ⟨h1, h2⟩
        · exact Or.inl (hequiv.symm h)
        · exact Or.inr (Or.inr ⟨hequiv.symm h2, hequiv.symm h1⟩)
        · exact Or.inr (Or.inl ⟨hequiv.symm h2, hequiv.symm h1⟩)
    | trans u v w _ _ ih1 ih2 =>
        rcases ih1 with h1 | ⟨h1, h1'⟩ | ⟨h1, h1'⟩ <;>
          rcases ih2 with h2 | ⟨h2, h2'⟩ | ⟨h2, h2'⟩
        · exact Or.inl (hequiv.trans h1 h2)
        · exact Or.inr (Or.inl ⟨hequiv.trans h1 h2, h2'⟩)
        · exact Or.inr (Or.inr ⟨hequiv.trans h1 h2, h2'⟩)
        · exact Or.inr (Or.inl ⟨h1, hequiv.trans h1' h2⟩)
        · exact Or.inl (hequiv.trans h1
            (hequiv.trans (hequiv.symm (hequiv.trans h1' h2)) h2'))
        · exact Or.inl (hequiv.trans h1 h2')
        · exact Or.inr (Or.inr ⟨h1, hequiv.trans h1' h2⟩)
        · exact Or.inl (hequiv.trans h1 h2')
        · exact Or.inr (Or.inr ⟨h1, h2'⟩)
  · rintro (h | ⟨h1, h2⟩ | ⟨h1, h2⟩)
    · exact Relation.EqvGen.rel _ _ (Or.inl h)
    · exact Relation.EqvGen.trans _ _ _
        (Relation.EqvGen.rel _ _ (Or.inl h1))
        (Relation.EqvGen.trans _ _ _
          (Relation.EqvGen.rel _ _ (Or.inr ⟨rfl, rfl⟩))
          (Relation.EqvGen.rel _ _ (Or.inl h2)))
    · exact Relation.EqvGen.trans _ _ _
        (Relation.EqvGen.rel _ _ (Or.inl h1))
        (Relation.EqvGen.trans _ _ _
          (Relation.EqvGen.symm _ _ (Relation.EqvGen.rel _ _ (Or.inr ⟨rfl, rfl⟩)))
          (Relation.EqvGen.rel _ _ (Or.inl h2)))

/-- `EqvGen` absorbs a nested `EqvGen` on the left of a generator union. -/
theorem eqvGen_or_absorb (r s : ℕ → ℕ → Prop) (a b : ℕ) :
    Relation.EqvGen (fun u v => Relation.EqvGen r u v ∨ s u v) a b ↔
      Relation.EqvGen (fun u v => r u v ∨ s u v) a b := by
  constructor
  · intro h
    induction h with
    | rel u v huv =>
        rcases huv with huv | huv
        · exact Relation.EqvGen.mono (fun x y hxy => Or.inl hxy) huv
        · exact Relation.EqvGen.rel _ _ (Or.inr huv)
    | refl u => exact Relation.EqvGen.refl u
    | symm u v _ ih => exact Relation.EqvGen.symm _ _ ih
    | trans u v w _ _ ih1 ih2 => exact Relation.EqvGen.trans _ _ _ ih1 ih2
  · refine Relation.EqvGen.mono ?_
    rintro u v (huv | huv)
    · exact Or.inl (Relation.EqvGen.rel _ _ huv)
    · exact Or.inr huv

/-- Pointwise-equivalent generators have the same equivalence closure. -/
theorem eqvGen_congr (r s : ℕ → ℕ → Prop) (h : ∀ u v, r u v ↔ s u v) (a b : ℕ) :
    Relation.EqvGen r a b ↔ Relation.EqvGen s a b :=
  ⟨Relation.EqvGen.mono (fun u v => (h u v).mp),
   Relation.EqvGen.mono (fun u v => (h u v).mpr)⟩

/-- Symmetrising the generator does not change the closure. -/
theorem eqvGen_symm_closure (r : ℕ → ℕ → Prop) (a b : ℕ) :
    Relation.EqvGen (fun u v => r u v ∨ r v u) a b ↔ Relation.EqvGen r a b := by
  constructor
  · intro h
    induction h with
    | rel u v huv =>
        rcases huv with huv | huv
        · exact Relation.EqvGen.rel _ _ huv
        · exact Relation.EqvGen.symm _ _ (Relation.EqvGen.rel _ _ huv)
    | refl u => exact Relation.EqvGen.refl u
    | symm u v _ ih => exact Relation.EqvGen.symm _ _ ih
    | trans u v w _ _ ih1 ih2 => exact Relation.EqvGen.trans _ _ _ ih1 ih2
  · exact Relation.EqvGen.mono fun u v huv => Or.inl huv

/-- The closure of the empty edge list is equality. -/
theorem eqvGen_nil (a b : ℕ) :
    Relation.EqvGen (fun u v => (u, v) ∈ ([] : List (ℕ × ℕ))) a b ↔ a = b := by
  constructor
  · intro h
    induction h with
    | rel u v huv => simp at huv
    | refl u => rfl
    | symm u v _ ih => exact ih.symm
    | trans u v w _ _ ih1 ih2 => exact ih1.trans ih2
  · rintro rfl
    exact Relation.EqvGen.refl a

/-- Folding `union` over an edge list from `new n`: the parent vector
stays well-formed of length `n`, and two nodes share a root exactly
when the edge list connects them. -/
theorem unions_fold_ok (n : ℕ) :
    ∀ es : List (ℕ × ℕ), (∀ e ∈ es, e.1 < n ∧ e.2 < n) →
    parentWF (es.foldl (fun s p => s.union p.1 p.2) (DisjointSet.new n)).parent ∧
    (es.foldl (fun s p => s.union p.1 p.2) (DisjointSet.new n)).parent.length = n ∧
    ∀ a b,
      (rootD (es.foldl (fun s p => s.union p.1 p.2) (DisjointSet.new n)).parent a =
        rootD (es.foldl (fun s p => s.union p.1 p.2) (DisjointSet.new n)).parent b ↔
      Relation.EqvGen (fun u v => (u, v) ∈ es) a b) := by
  intro es
  induction es using List.reverseRecOn with
  | nil =>
      intro _
      refine ⟨parentWF_new n, new_parent_length n, fun a b => ?_⟩
      simp only [List.foldl_nil]
      rw [rootD_new, rootD_new]
      exact (eqvGen_nil a b).symm
  | append_singleton es e ih =>
      intro hes
      obtain ⟨hwf, hlen, hiff⟩ := ih (fun x hx => hes x (List.mem_append_left _ hx))
      have he : e.1 < n ∧ e.2 < n :=
        hes e (List.mem_append_right _ (List.mem_singleton_self e))
      have hfold : (es ++ [e]).foldl (fun s p => s.union p.1 p.2) (DisjointSet.new n) =
          (es.foldl (fun s p => s.union p.1 p.2) (DisjointSet.new n)).union e.1 e.2 := by
        rw [List.foldl_append]
        rfl
      obtain ⟨hwfU, hlenU, hiffU⟩ :=
        union_ok (es.foldl (fun s p => s.union p.1 p.2) (DisjointSet.new n)) e.1 e.2 hwf
          (by rw [hlen]; exact he.1) (by rw [hlen]; exact he.2)
      refine ⟨hfold ▸ hwfU, by rw [hfold, hlenU, hlen], fun a b => ?_⟩
      rw [hfold, hiffU a b]
      have hE := Relation.EqvGen.is_equivalence (fun u v => (u, v) ∈ es)
      rw [hiff a b, hiff a e.1, hiff b e.2, hiff a e.2, hiff b e.1]
      have h1 : Relation.EqvGen (fun u v => (u, v) ∈ es ++ [e]) a b ↔
          Relation.EqvGen (fun u v => (u, v) ∈ es ∨ (u = e.1 ∧ v = e.2)) a b := by
        refine eqvGen_congr _ _ (fun u v => ?_) a b
        rw [List.mem_append, List.mem_singleton, Prod.ext_iff]
      have h2 := eqvGen_or_absorb (fun u v => (u, v) ∈ es)
        (fun u v => u = e.1 ∧ v = e.2) a b
      have h3 := eqvGen_extend (Relation.EqvGen (fun u v => (u, v) ∈ es)) e.1 e.2 hE a b
      rw [h1, ← h2, h3]
      constructor
      · rintro (h | ⟨hx, hy⟩ | ⟨hx, hy⟩)
        · exact Or.inl h
        · exact Or.inr (Or.inl ⟨hx, hE.symm hy⟩)
        · exact Or.inr (Or.inr ⟨hx, hE.symm hy⟩)
      · rintro (h | ⟨hx, hy⟩ | ⟨hx, hy⟩)
        · exact Or.inl h
        · exact Or.inr (Or.inl ⟨hx, hE.symm hy⟩)
        · exact Or.inr (Or.inr ⟨hx, hE.symm hy⟩)

/-- The root-collection fold accumulates the roots of the starting
structure (compression along the way never changes a root). -/
theorem collectRoots_aux :
    ∀ (l : List ℕ) (s : DisjointSet) (acc : List ℕ), parentWF s.parent →
    (l.foldl (fun acc i =>
        let f := acc.2.find i
        (acc.1 ++ [f.1], f.2)) (acc, s)).1 = acc ++ l.map (rootD s.parent)
  | [], s, acc, _ => by simp
  | i :: l, s, acc, hwf => by
      obtain ⟨h1, hwf', hroots, -, -, -⟩ := find_ok s i hwf
      simp only [List.foldl_cons, List.map_cons]
      have hstep := collectRoots_aux l (s.find i).2 (acc ++ [(s.find i).1]) hwf'
      dsimp only at hstep ⊢
      rw [hstep, h1]
      rw [List.map_congr_left (fun x _ => hroots x), List.append_assoc]
      rfl

theorem collectRoots_eq (s : DisjointSet) (n : ℕ) (hwf : parentWF s.parent) :
    collectRoots s n = (List.range n).map (rootD s.parent) := by
  unfold collectRoots
  rw [collectRoots_aux (List.range n) s [] hwf]
  rfl

theorem roots_getD (s : DisjointSet) (n i : ℕ) (hwf : parentWF s.parent) (hi : i < n) :
    (collectRoots s n).getD i 0 = rootD s.parent i := by
  rw [collectRoots_eq s n hwf, List.getD_eq_getElem?_getD, List.getElem?_map,
    List.getElem?_range hi]
  rfl

/-- New bucket members come only from the inserted index. -/
theorem mem_bucketsGet_insert :
    ∀ (b : List (ℕ × List ℕ)) (key idx k j : ℕ),
    j ∈ bucketsGet (bucketsInsert b key idx) k → j ∈ bucketsGet b k ∨ j = idx
  | [], key, idx, k, j => by
      intro h
      unfold bucketsInsert bucketsGet at h
      split at h
      · rcases List.mem_singleton.mp h with rfl
        exact Or.inr rfl
      · cases h
  | (k', bkt) :: rest, key, idx, k, j => by
      intro h
      unfold bucketsInsert at h
      split at h
      · next hk' =>
        unfold bucketsGet at h
        split at h
        · split at h
          · exact Or.inl (by unfold bucketsGet; rw [if_pos (by assumption)]; exact h)
          · rcases List.mem_append.mp h with h | h
            · exact Or.inl (by unfold bucketsGet; rw [if_pos (by assumption)]; exact h)
            · exact Or.inr (List.mem_singleton.mp h)
        · exact Or.inl (by unfold bucketsGet; rw [if_neg (by assumption)]; exact h)
      · next hk' =>
        unfold bucketsGet at h
        split at h
        · exact Or.inl (by unfold bucketsGet; rw [if_pos (by assumption)]; exact h)
        · rcases mem_bucketsGet_insert rest key idx k j h with h | h
          · exact Or.inl (by unfold bucketsGet; rw [if_neg (by assumption)]; exact h)
          · exact Or.inr h

/-- Insertion never removes a bucket member. -/
theorem mem_bucketsGet_insert_of_mem :
    ∀ (b : List (ℕ × List ℕ)) (key idx k j : ℕ),
    j ∈ bucketsGet b k → j ∈ bucketsGet (bucketsInsert b key idx) k
  | [], key, idx, k, j => by
      intro h
      unfold bucketsGet at h
      cases h
  | (k', bkt) :: rest, key, idx, k, j => by
      intro h
      unfold bucketsGet at h
      unfold bucketsInsert
      split at h
      · next hk =>
        split
        · unfold bucketsGet
          rw [if_pos hk]
          split
          · exact h
          · exact List.mem_append_left _ h
        · unfold bucketsGet
          rw [if_pos hk]
          exact h
      · next hk =>
        split
        · unfold bucketsGet
          rw [if_neg hk]
          exact h
        · unfold bucketsGet
          rw [if_neg hk]
          exact mem_bucketsGet_insert_of_mem rest key idx k j h

/-- The inserted index lands in its bucket whenever the bucket is below
capacity. -/
theorem self_mem_bucketsGet_insert :
    ∀ (b : List (ℕ × List ℕ)) (key idx : ℕ),
    (bucketsGet b key).length < lshMaxBucketSize →
    idx ∈ bucketsGet (bucketsInsert b key idx) key
  | [], key, idx => by
      intro _
      unfold bucketsInsert bucketsGet
      rw [if_pos rfl]
      exact List.mem_singleton_self idx
  | (k', bkt) :: rest, key, idx => by
      intro hlen
      unfold bucketsGet at hlen
      unfold bucketsInsert
      split at hlen
      · next hk =>
        rw [if_pos hk]
        unfold bucketsGet
        rw [if_pos hk]
        split
        · next hcond =>
          rcases hcond with hmem | hcap
          · exact hmem
          · exact absurd hlen (by omega)
        · exact List.mem_append_right _ (List.mem_singleton_self idx)
      · next hk =>
        rw [if_neg hk]
        unfold bucketsGet
        rw [if_neg hk]
        exact self_mem_bucketsGet_insert rest key idx hlen

/-- One insertion grows a bucket by at most one entry. -/
theorem bucketsGet_insert_length :
    ∀ (b : List (ℕ × List ℕ)) (key idx k : ℕ),
    (bucketsGet (bucketsInsert b key idx) k).length ≤ (bucketsGet b k).length + 1
  | [], key, idx, k => by
      unfold bucketsInsert bucketsGet
      split
      · simp
      · simp [bucketsGet]
  | (k', bkt) :: rest, key, idx, k => by
      unfold bucketsInsert
      split
      · next hk =>
        unfold bucketsGet
        split
        · split
          · omega
          · simp
        · omega
      · next hk =>
        unfold bucketsGet
        split
        · omega
        · exact bucketsGet_insert_length rest key idx k

/-- Fold of insertions over a key list: new members come only from the
inserted index. -/
theorem mem_foldl_insert (i k j : ℕ) :
    ∀ (keys : List ℕ) (b : List (ℕ × List ℕ)),
    j ∈ bucketsGet (keys.foldl (fun b key => bucketsInsert b key i) b) k →
    j ∈ bucketsGet b k ∨ j = i
  | [], b, hmem => Or.inl hmem
  | key :: keys, b, hmem => by
      rcases mem_foldl_insert i k j keys _ hmem with hm | rfl
      · rcases mem_bucketsGet_insert b key i k j hm with hm' | rfl
        · exact Or.inl hm'
        · exact Or.inr rfl
      · exact Or.inr rfl

theorem mem_foldl_insert_of_mem (i k j : ℕ) :
    ∀ (keys : List ℕ) (b : List (ℕ × List ℕ)),
    j ∈ bucketsGet b k →
    j ∈ bucketsGet (keys.foldl (fun b key => bucketsInsert b key i) b) k
  | [], _, hmem => hmem
  | key :: keys, b, hmem =>
      mem_foldl_insert_of_mem i k j keys _
        (mem_bucketsGet_insert_of_mem b key i k j hmem)

/-- `add` introduces no member other than the added index. -/
theorem mem_lshAdd (b : List (ℕ × List ℕ)) (alg : HashAlgorithm) (h : String)
    (i k j : ℕ) (hmem : j ∈ bucketsGet (lshAdd b alg h i) k) :
    j ∈ bucketsGet b k ∨ j = i := by
  unfold lshAdd at hmem
  split at hmem
  · exact Or.inl hmem
  · exact mem_foldl_insert i k j _ b hmem

theorem mem_lshAdd_of_mem (b : List (ℕ × List ℕ)) (alg : HashAlgorithm) (h : String)
    (i k j : ℕ) (hmem : j ∈ bucketsGet b k) : j ∈ bucketsGet (lshAdd b alg h i) k := by
  unfold lshAdd
  split
  · exact hmem
  · exact mem_foldl_insert_of_mem i k j _ b hmem

/-- Shifting the enumeration start of the batch-add fold. -/
theorem foldl_lshAdd_enumFrom (alg : HashAlgorithm) :
    ∀ (t : List String) (m s : ℕ) (b : List (ℕ × List ℕ)),
    (List.enumFrom m t).foldl (fun b ih => lshAdd b alg ih.2 (s + ih.1)) b =
    (List.enumFrom 0 t).foldl (fun b ih => lshAdd b alg ih.2 (s + m + ih.1)) b
  | [], _, _, _ => rfl
  | h :: t, m, s, b => by
      show (List.enumFrom (m + 1) t).foldl (fun b ih => lshAdd b alg ih.2 (s + ih.1))
          (lshAdd b alg h (s + m)) =
        (List.enumFrom 1 t).foldl (fun b ih => lshAdd b alg ih.2 (s + m + ih.1))
          (lshAdd b alg h (s + m + 0))
      rw [Nat.add_zero, foldl_lshAdd_enumFrom alg t (m + 1) s,
        foldl_lshAdd_enumFrom alg t 1 (s + m)]
      show (List.enumFrom 0 t).foldl (fun b ih => lshAdd b alg ih.2 (s + (m + 1) + ih.1))
          (lshAdd b alg h (s + m)) = _
      rw [← Nat.add_assoc]
      rfl

/-- Unfolding one step of `batch_add`. -/
theorem lshBatchAdd_cons (b : List (ℕ × List ℕ)) (alg : HashAlgorithm)
    (h : String) (t : List String) (s : ℕ) :
    lshBatchAdd b alg (h :: t) s = lshBatchAdd (lshAdd b alg h s) alg t (s + 1) := by
  show (List.enumFrom 1 t).foldl (fun b ih => lshAdd b alg ih.2 (s + ih.1))
      (lshAdd b alg h (s + 0)) =
    (List.enumFrom 0 t).foldl (fun b ih => lshAdd b alg ih.2 (s + 1 + ih.1))
      (lshAdd b alg h s)
  rw [Nat.add_zero, foldl_lshAdd_enumFrom alg t 1 s]

/-- Indices in the index after a batch add from position `s` are old
members or lie in `[s, s + len)`. -/
theorem mem_lshBatchAdd (alg : HashAlgorithm) (k j : ℕ) :
    ∀ (hashes : List String) (b : List (ℕ × List ℕ)) (s : ℕ),
    j ∈ bucketsGet (lshBatchAdd b alg hashes s) k →
    j ∈ bucketsGet b k ∨ (s ≤ j ∧ j < s + hashes.length)
  | [], b, s, hmem => Or.inl hmem
  | h :: t, b, s, hmem => by
      rw [lshBatchAdd_cons] at hmem
      rcases mem_lshBatchAdd alg k j t _ (s + 1) hmem with hm | hrange
      · rcases mem_lshAdd b alg h s k j hm with hm' | rfl
        · exact Or.inl hm'
        · exact Or.inr ⟨Nat.le_refl j, by simp⟩
      · refine Or.inr ⟨by omega, ?_⟩
        simp only [List.length_cons]
        omega

theorem mem_lshBatchAdd_of_mem (alg : HashAlgorithm) (k j : ℕ) :
    ∀ (hashes : List String) (b : List (ℕ × List ℕ)) (s : ℕ),
    j ∈ bucketsGet b k → j ∈ bucketsGet (lshBatchAdd b alg hashes s) k
  | [], _, _, hmem => hmem
  | h :: t, b, s, hmem => by
      rw [lshBatchAdd_cons]
      exact mem_lshBatchAdd_of_mem alg k j t _ (s + 1)
        (mem_lshAdd_of_mem b alg h s k j hmem)

/-- Every query hit lies in some bucket. -/
theorem mem_lshQuery (buckets : List (ℕ × List ℕ)) (alg : HashAlgorithm)
    (h : String) (j : ℕ) (hmem : j ∈ lshQuery buckets alg h) :
    ∃ k, j ∈ bucketsGet buckets k := by
  unfold lshQuery at hmem
  split at hmem
  · cases hmem
  · have hm := (List.perm_insertionSort _ _).mem_iff.mp hmem
    rw [List.mem_dedup, List.mem_flatMap] at hm
    obtain ⟨k, -, hk⟩ := hm
    exact ⟨k, hk⟩

/-- Membership characterization of the small-dataset pair generator. -/
theorem mem_pairs_small (hashes : List String) (alg : HashAlgorithm) (i j : ℕ) :
    (i, j) ∈ compute_pairs_small_dataset hashes alg ↔
      i < hashes.length ∧ i < j ∧
      j ∈ lshQuery (lshBatchAdd [] alg hashes 0) alg (hashes.getD i "") := by
  unfold compute_pairs_small_dataset
  simp only [List.mem_flatMap, List.mem_map, List.mem_filter, List.mem_range]
  constructor
  · rintro ⟨i', hi', j', ⟨hq, hlt⟩, heq⟩
    rw [Prod.ext_iff] at heq
    obtain ⟨h1, h2⟩ := heq
    dsimp only at h1 h2
    subst h1
    subst h2
    exact ⟨hi', by simpa using hlt, hq⟩
  · rintro ⟨hi, hij, hq⟩
    exact ⟨i, hi, j, ⟨hq, by simpa using hij⟩, rfl⟩

/-- Small-dataset pairs are strictly increasing in-range index pairs. -/
theorem pairs_small_range (hashes : List String) (alg : HashAlgorithm)
    (p : ℕ × ℕ) (hp : p ∈ compute_pairs_small_dataset hashes alg) :
    p.1 < hashes.length ∧ p.2 < hashes.length ∧ p.1 < p.2 := by
  obtain ⟨i, j⟩ := p
  rw [mem_pairs_small] at hp
  obtain ⟨hi, hij, hq⟩ := hp
  obtain ⟨k, hk⟩ := mem_lshQuery _ alg _ j hq
  rcases mem_lshBatchAdd alg k j hashes [] 0 hk with hm | hrange
  · cases hm
  · exact ⟨hi, by omega, hij⟩

/-- Large-dataset pairs are in-range index pairs. -/
theorem pairs_large_range (hashes : List String) (alg : HashAlgorithm)
    (p : ℕ × ℕ) (hp : p ∈ compute_pairs_large_dataset hashes alg) :
    p.1 < hashes.length ∧ p.2 < hashes.length := by
  unfold compute_pairs_large_dataset at hp
  have hbatch : ∀ b x : ℕ,
      x < ((hashes.drop (b * lshBatchSize alg)).take (lshBatchSize alg)).length →
      x + b * lshBatchSize alg < hashes.length := by
    intro b x hx
    rw [List.length_take, List.length_drop] at hx
    omega
  have hquery : ∀ b j : ℕ,
      j ∈ lshQuery (lshBatchAdd [] alg
          ((hashes.drop (b * lshBatchSize alg)).take (lshBatchSize alg)) 0) alg
        (((hashes.drop (b * lshBatchSize alg)).take (lshBatchSize alg)).getD 0 "") →
      True := fun _ _ _ => trivial
  clear hquery
  have hp' := (List.perm_insertionSort _ _).mem_iff.mp hp
  rw [List.mem_dedup, List.mem_append] at hp'
  rcases hp' with hp' | hp'
  · rw [List.mem_flatMap] at hp'
    obtain ⟨b, -, hp'⟩ := hp'
    rw [List.mem_flatMap] at hp'
    obtain ⟨i, hi, hp'⟩ := hp'
    rw [List.mem_map] at hp'
    obtain ⟨j, hj, heq⟩ := hp'
    rw [List.mem_filter] at hj
    rw [List.mem_range] at hi
    obtain ⟨k, hk⟩ := mem_lshQuery _ alg _ j hj.1
    rcases mem_lshBatchAdd alg k j _ [] 0 hk with hm | hrange
    · cases hm
    · rw [← heq]
      dsimp only at hi hrange
      exact ⟨hbatch b i hi, hbatch b j (by omega)⟩
  · rw [List.mem_flatMap] at hp'
    obtain ⟨bi, -, hp'⟩ := hp'
    rw [List.mem_flatMap] at hp'
    obtain ⟨bj, -, hp'⟩ := hp'
    split at hp'
    · rw [List.mem_flatMap] at hp'
      obtain ⟨jh, hjh, hp'⟩ := hp'
      rw [List.mem_map] at hp'
      obtain ⟨iIdx, hq, heq⟩ := hp'
      obtain ⟨a, x⟩ := jh
      rw [List.mk_mem_enum_iff_getElem?] at hjh
      have ha := (List.getElem?_eq_some.1 hjh).1
      obtain ⟨k, hk⟩ := mem_lshQuery _ alg _ iIdx hq
      rcases mem_lshBatchAdd alg k iIdx _ [] 0 hk with hm | hrange
      · cases hm
      · rw [← heq]
        dsimp only at ha hrange
        exact ⟨hbatch bi iIdx (by omega), hbatch bj a ha⟩
    · cases hp'

/-- Candidate pairs are in-range. -/
theorem candidate_pairs_range (hashes : List String) (alg : HashAlgorithm)
    (p : ℕ × ℕ) (hp : p ∈ compute_candidate_pairs hashes alg) :
    p.1 < hashes.length ∧ p.2 < hashes.length := by
  unfold compute_candidate_pairs at hp
  split at hp
  · cases hp
  · split at hp
    · obtain ⟨h1, h2, -⟩ := pairs_small_range hashes alg p hp
      exact ⟨h1, h2⟩
    · exact pairs_large_range hashes alg p hp

/-- Verified pairs are in-range. -/
theorem verifiedPairs_range (hashes : List HashResult) (alg : HashAlgorithm)
    (threshold : ℚ) (p : ℕ × ℕ) (hp : p ∈ verifiedPairs hashes alg threshold) :
    p.1 < hashes.length ∧ p.2 < hashes.length := by
  unfold verifiedPairs at hp
  rw [List.mem_filter] at hp
  have h := candidate_pairs_range _ alg p hp.1
  rwa [List.length_map] at h

/-- Every verified pair passed the similarity-threshold filter. -/
theorem verifiedPairs_threshold (hashes : List HashResult) (alg : HashAlgorithm)
    (threshold : ℚ) (p : ℕ × ℕ) (hp : p ∈ verifiedPairs hashes alg threshold) :
    threshold ≤ pairSimilarity (hashes.map (fun h => h.hash)) alg p.1 p.2 := by
  unfold verifiedPairs at hp
  rw [List.mem_filter] at hp
  exact of_decide_eq_true hp.2

/-- Unfolding a successful `detect_duplicates` run. -/
theorem detect_unfold (md : String → ℕ × String × String) (paths : List String)
    (outcomes : List (Except String HashResult)) (algorithm : HashAlgorithm)
    (threshold : ℚ) (gs : List DuplicateGroup)
    (hok : detect_duplicates md paths outcomes algorithm threshold = .ok gs)
    (hne : paths.isEmpty = false) :
    ∃ hashes groups, compute_image_hashes outcomes = .ok hashes ∧
      find_duplicate_groups md paths hashes algorithm threshold = .ok groups ∧
      gs = List.insertionSort groupSizeGe groups := by
  unfold detect_duplicates at hok
  rw [if_neg (by simp [hne])] at hok
  cases hch : compute_image_hashes outcomes with
  | error e =>
      rw [hch] at hok
      exact Except.noConfusion hok
  | ok hashes =>
      rw [hch] at hok
      simp only [bind, Except.bind] at hok
      cases hfg : find_duplicate_groups md paths hashes algorithm threshold with
      | error e =>
          rw [hfg] at hok
          exact Except.noConfusion hok
      | ok groups =>
          rw [hfg] at hok
          simp only [pure, Except.pure] at hok
          injection hok with h
          exact ⟨hashes, groups, rfl, hfg, h.symm⟩

/-- Structure of the groups returned by `find_duplicate_groups`: each is
the image list of a root class of at least two in-range indices, closed
under edge connectivity. -/
theorem find_groups_mem (md : String → ℕ × String × String)
    (paths : List String) (hashes : List HashResult) (algorithm : HashAlgorithm)
    (threshold : ℚ) (gs : List DuplicateGroup) (g : DuplicateGroup)
    (hok : find_duplicate_groups md paths hashes algorithm threshold = .ok gs)
    (hg : g ∈ gs) :
    ∃ S : List ℕ,
      g.images = S.map (mkImageInfo md paths hashes) ∧
      g.similarityThreshold = threshold ∧
      2 ≤ S.length ∧
      (∀ i ∈ S, i < hashes.length) ∧
      (∀ i ∈ S, ∀ j ∈ S,
        Relation.EqvGen
          (fun u v => (u, v) ∈ verifiedPairs hashes algorithm threshold) i j) ∧
      (∀ i ∈ S, ∀ j, j < hashes.length →
        Relation.EqvGen
          (fun u v => (u, v) ∈ verifiedPairs hashes algorithm threshold) i j →
        j ∈ S) := by
  unfold find_duplicate_groups at hok
  split at hok
  · injection hok with h
    subst h
    cases hg
  · split at hok
    · exact Except.noConfusion hok
    · injection hok with h
      subst h
      dsimp only at hg
      obtain ⟨hwf, hlen, hiff⟩ := unions_fold_ok hashes.length
        (verifiedPairs hashes algorithm threshold)
        (fun e he => verifiedPairs_range hashes algorithm threshold e he)
      rw [List.mem_filterMap] at hg
      obtain ⟨indices, hmem, hphi⟩ := hg
      rw [List.mem_map] at hmem
      obtain ⟨r, hr, rfl⟩ := hmem
      split at hphi
      · exact Option.noConfusion hphi
      · next hlen2 =>
        split at hphi
        · next =>
          injection hphi with hphi
          subst hphi
          refine ⟨_, rfl, rfl, by omega, ?_, ?_, ?_⟩
          · intro i hi
            rw [List.mem_filter, List.mem_range] at hi
            exact hi.1
          · intro i hi j hj
            rw [List.mem_filter, List.mem_range, decide_eq_true_eq] at hi hj
            refine (hiff i j).mp ?_
            rw [← roots_getD _ hashes.length i hwf hi.1,
              ← roots_getD _ hashes.length j hwf hj.1, hi.2, hj.2]
          · intro i hi j hjlt hconn
            rw [List.mem_filter, List.mem_range, decide_eq_true_eq] at hi
            rw [List.mem_filter, List.mem_range, decide_eq_true_eq]
            refine ⟨hjlt, ?_⟩
            rw [roots_getD _ hashes.length j hwf hjlt, ← (hiff i j).mpr hconn,
              ← roots_getD _ hashes.length i hwf hi.1, hi.2]
        · exact Option.noConfusion hphi

/-- Completeness of the grouping: connected distinct in-range indices
appear together in some returned group. -/
theorem find_groups_complete (md : String → ℕ × String × String)
    (paths : List String) (hashes : List HashResult) (algorithm : HashAlgorithm)
    (threshold : ℚ) (gs : List DuplicateGroup) (i j : ℕ)
    (hok : find_duplicate_groups md paths hashes algorithm threshold = .ok gs)
    (hi : i < hashes.length) (hj : j < hashes.length) (hij : i ≠ j)
    (hconn : Relation.EqvGen
      (fun u v => (u, v) ∈ verifiedPairs hashes algorithm threshold) i j) :
    ∃ g ∈ gs, mkImageInfo md paths hashes i ∈ g.images ∧
      mkImageInfo md paths hashes j ∈ g.images := by
  unfold find_duplicate_groups at hok
  split at hok
  · next hemp =>
    rw [List.isEmpty_iff] at hemp
    subst hemp
    simp at hi
  · split at hok
    · exact Except.noConfusion hok
    · injection hok with h
      subst h
      obtain ⟨hwf, hlen, hiff⟩ := unions_fold_ok hashes.length
        (verifiedPairs hashes algorithm threshold)
        (fun e he => verifiedPairs_range hashes algorithm threshold e he)
      set ds := (verifiedPairs hashes algorithm threshold).foldl
        (fun s p => s.union p.1 p.2) (DisjointSet.new hashes.length) with hds
      set roots := collectRoots ds hashes.length with hrootsdef
      set r := roots.getD i 0 with hrdef
      set S := (List.range hashes.length).filter (fun i => roots.getD i 0 = r)
        with hSdef
      have hiS : i ∈ S := by
        rw [hSdef, List.mem_filter, List.mem_range, decide_eq_true_eq]
        exact ⟨hi, rfl⟩
      have hjS : j ∈ S := by
        rw [hSdef, List.mem_filter, List.mem_range, decide_eq_true_eq]
        refine ⟨hj, ?_⟩
        rw [hrdef, roots_getD _ hashes.length i hwf hi,
          roots_getD _ hashes.length j hwf hj]
        exact ((hiff i j).mpr hconn).symm
      have hSnodup : S.Nodup := (List.nodup_range hashes.length).filter _
      have hSlen : 2 ≤ S.length := by
        have hsub : [i, j] ⊆ S := by
          intro x hx
          rw [List.mem_cons, List.mem_singleton] at hx
          rcases hx with rfl | rfl
          · exact hiS
          · exact hjS
        have hnd : ([i, j] : List ℕ).Nodup := by simp [hij]
        exact (hnd.subperm hsub).length_le
      have hrmem : r ∈ roots.dedup := by
        rw [List.mem_dedup, hrdef, hrootsdef, collectRoots_eq ds hashes.length hwf]
        rw [List.getD_eq_getElem?_getD, List.getElem?_map, List.getElem?_range hi]
        exact List.mem_map_of_mem _ (List.mem_range.mpr hi)
      refine ⟨⟨S.map (mkImageInfo md paths hashes), threshold⟩, ?_, ?_, ?_⟩
      · rw [List.mem_filterMap]
        refine ⟨S, List.mem_map_of_mem _ hrmem, ?_⟩
        rw [if_neg (by omega)]
        dsimp only
        rw [if_pos (by rw [List.length_map]; omega)]
      · exact List.mem_map_of_mem _ hiS
      · exact List.mem_map_of_mem _ hjS

/-- The closures of the undirected edge relation and of pair-list
membership agree. -/
theorem eqvGen_verifiedEdge (hashes : List HashResult) (alg : HashAlgorithm)
    (threshold : ℚ) (i j : ℕ) :
    Relation.EqvGen (verifiedEdge hashes alg threshold) i j ↔
      Relation.EqvGen
        (fun u v => (u, v) ∈ verifiedPairs hashes alg threshold) i j := by
  rw [← eqvGen_symm_closure (fun u v => (u, v) ∈ verifiedPairs hashes alg threshold) i j]
  exact eqvGen_congr _ _ (fun u v => Iff.rfl) i j

/-- **C3**: every group returned by `detect_duplicates` contains at
least two images and is a connected component of the verified
similarity graph: its image list is built from an index set of
surviving images that is pairwise connected by verified edges and
closed under connectivity, and every verified edge meets the
threshold. -/
theorem detect_groups_are_components (md : String → ℕ × String × String)
    (paths : List String) (outcomes : List (Except String HashResult))
    (algorithm : HashAlgorithm) (threshold : ℚ) (gs : List DuplicateGroup)
    (g : DuplicateGroup)
    (hok : detect_duplicates md paths outcomes algorithm threshold = .ok gs)
    (hg : g ∈ gs) :
    ∃ (hashes : List HashResult) (S : List ℕ),
      compute_image_hashes outcomes = .ok hashes ∧
      g.images = S.map (mkImageInfo md paths hashes) ∧
      g.similarityThreshold = threshold ∧
      2 ≤ g.images.length ∧
      (∀ i ∈ S, i < hashes.length) ∧
      (∀ i ∈ S, ∀ j ∈ S,
        Relation.EqvGen (verifiedEdge hashes algorithm threshold) i j) ∧
      (∀ i ∈ S, ∀ j, j < hashes.length →
        Relation.EqvGen (verifiedEdge hashes algorithm threshold) i j → j ∈ S) ∧
      ∀ p ∈ verifiedPairs hashes algorithm threshold,
        threshold ≤ pairSimilarity (hashes.map (fun h => h.hash)) algorithm p.1 p.2 := by
  cases hpe : paths.isEmpty with
  | true =>
      unfold detect_duplicates at hok
      rw [if_pos hpe] at hok
      injection hok with h
      subst h
      cases hg
  | false =>
      obtain ⟨hashes, groups, hch, hfg, hsort⟩ :=
        detect_unfold md paths outcomes algorithm threshold gs hok hpe
      have hgmem : g ∈ groups := by
        rw [hsort] at hg
        exact (List.perm_insertionSort groupSizeGe groups).mem_iff.mp hg
      obtain ⟨S, himg, hthr, hSlen, hSrange, hSconn, hSmax⟩ :=
        find_groups_mem md paths hashes algorithm threshold groups g hfg hgmem
      refine ⟨hashes, S, hch, himg, hthr, ?_, hSrange, ?_, ?_, ?_⟩
      · rw [himg, List.length_map]
        exact hSlen
      · intro i hi j hj
        rw [eqvGen_verifiedEdge]
        exact hSconn i hi j hj
      · intro i hi j hjlt hconn
        rw [eqvGen_verifiedEdge] at hconn
        exact hSmax i hi j hjlt hconn
      · exact fun p hp => verifiedPairs_threshold hashes algorithm threshold p hp

instance : IsTotal DuplicateGroup groupSizeGe :=
  ⟨fun a b => le_total b.images.length a.images.length⟩

instance : IsTrans DuplicateGroup groupSizeGe :=
  ⟨fun _ _ _ hab hbc => le_trans hbc hab⟩

/-- **C9**: the group list returned by `detect_duplicates` is sorted by
group size in descending order. -/
theorem detect_duplicates_sorted_by_size (md : String → ℕ × String × String)
    (paths : List String) (outcomes : List (Except String HashResult))
    (algorithm : HashAlgorithm) (threshold : ℚ) (gs : List DuplicateGroup)
    (hok : detect_duplicates md paths outcomes algorithm threshold = .ok gs)
    (k : ℕ) (hk : k + 1 < gs.length) :
    (gs.get ⟨k + 1, hk⟩).images.length ≤
      (gs.get ⟨k, Nat.lt_of_succ_lt hk⟩).images.length := by
  cases hpe : paths.isEmpty with
  | true =>
      unfold detect_duplicates at hok
      rw [if_pos hpe] at hok
      injection hok with h
      subst h
      simp at hk
  | false =>
      obtain ⟨hashes, groups, -, -, hsort⟩ :=
        detect_unfold md paths outcomes algorithm threshold gs hok hpe
      subst hsort
      have hsorted := List.sorted_insertionSort groupSizeGe groups
      exact hsorted.rel_get_of_lt (by simp [Fin.lt_def])

theorem lshAdd_empty (b : List (ℕ × List ℕ)) (alg : HashAlgorithm) (i : ℕ) :
    lshAdd b alg "" i = b := by
  unfold lshAdd
  rw [if_pos]
  rfl

/-- For `Exact`, `add` is a single insertion under the digest's 31-poly
key. -/
theorem lshAdd_exact (b : List (ℕ × List ℕ)) (h : String) (i : ℕ) (hne : h ≠ "") :
    lshAdd b .exact h i = bucketsInsert b (hash_to_u64 h) i := by
  unfold lshAdd
  rw [if_neg (by simpa [String.isEmpty_iff] using hne)]
  rfl

/-- For `Exact`, a query returns exactly the digest's bucket. -/
theorem mem_lshQuery_exact (buckets : List (ℕ × List ℕ)) (h : String) (j : ℕ)
    (hne : h ≠ "") :
    j ∈ lshQuery buckets .exact h ↔ j ∈ bucketsGet buckets (hash_to_u64 h) := by
  unfold lshQuery
  rw [if_neg (by simpa [String.isEmpty_iff] using hne)]
  dsimp only
  rw [(List.perm_insertionSort _ _).mem_iff, List.mem_dedup]
  show j ∈ ([hash_to_u64 h].flatMap (bucketsGet buckets)) ↔ _
  simp

/-- Every in-range index with a nonempty digest lands in its own bucket
when the dataset fits below the bucket capacity. -/
theorem exact_batch_mem_self :
    ∀ (hashes : List String) (b : List (ℕ × List ℕ)) (s : ℕ),
    (∀ k, (bucketsGet b k).length ≤ s) →
    s + hashes.length ≤ lshMaxBucketSize →
    ∀ t, t < hashes.length → hashes.getD t "" ≠ "" →
    (s + t) ∈ bucketsGet (lshBatchAdd b .exact hashes s)
      (hash_to_u64 (hashes.getD t ""))
  | [], _, _, _, _, t, ht, _ => absurd ht (by simp)
  | h :: hs, b, s, hb, hcap, t, ht, hne => by
      rw [lshBatchAdd_cons]
      cases t with
      | zero =>
          have hh : (h :: hs).getD 0 "" = h := rfl
          rw [hh] at hne ⊢
          rw [Nat.add_zero]
          apply mem_lshBatchAdd_of_mem
          rw [lshAdd_exact b h s hne]
          apply self_mem_bucketsGet_insert
          have h1 := hb (hash_to_u64 h)
          have h2 : s + (h :: hs).length ≤ lshMaxBucketSize := hcap
          simp only [List.length_cons] at h2
          omega
      | succ t =>
          have hgd : (h :: hs).getD (t + 1) "" = hs.getD t "" := rfl
          rw [hgd] at hne ⊢
          rw [show s + (t + 1) = (s + 1) + t by omega]
          apply exact_batch_mem_self hs (lshAdd b .exact h s) (s + 1) ?_ ?_ t ?_ hne
          · intro k
            by_cases hhe : h = ""
            · subst hhe
              rw [lshAdd_empty]
              exact Nat.le_succ_of_le (hb k)
            · rw [lshAdd_exact b h s hhe]
              have h1 := bucketsGet_insert_length b (hash_to_u64 h) s k
              have h2 := hb k
              omega
          · simp only [List.length_cons] at hcap
            omega
          · simp only [List.length_cons] at ht
            omega

/-- Equal nonempty digests always form a small-dataset candidate pair. -/
theorem exact_candidate_complete (hashes : List String) (i j : ℕ)
    (hn : hashes.length ≤ 2000) (hi : i < hashes.length) (hj : j < hashes.length)
    (hij : i < j) (hne : hashes.getD j "" ≠ "")
    (heq : hashes.getD i "" = hashes.getD j "") :
    (i, j) ∈ compute_candidate_pairs hashes .exact := by
  unfold compute_candidate_pairs
  rw [if_neg (by omega), if_pos (by omega)]
  rw [mem_pairs_small]
  refine ⟨hi, hij, ?_⟩
  have hnei : hashes.getD i "" ≠ "" := by
    rw [heq]
    exact hne
  rw [mem_lshQuery_exact _ _ _ hnei, heq]
  have := exact_batch_mem_self hashes [] 0 (fun k => by simp [bucketsGet])
    (by simpa [lshMaxBucketSize] using hn) j hj hne
  simpa using this

theorem zip_self_filter_ne :
    ∀ l : List Bool, (l.zip l).filter (fun p => p.1 ≠ p.2) = []
  | [] => rfl
  | x :: l => by
      simp only [List.zip_cons_cons, List.filter_cons]
      rw [if_neg (by simp)]
      exact zip_self_filter_ne l

/-- Equal fingerprint strings give pair similarity 100 (both on the
bit-vector fast path and on the string path) for `Exact`. -/
theorem pairSimilarity_exact_self (hashStrings : List String) (i j : ℕ)
    (heq : hashStrings.getD i "" = hashStrings.getD j "") :
    pairSimilarity hashStrings .exact i j = 100 := by
  unfold pairSimilarity
  dsimp only
  rw [heq]
  cases hbv : binaryBitVecOf (hashStrings.getD j "") with
  | none =>
      unfold calculate_similarity
      rw [if_pos rfl]
  | some bv =>
      dsimp only
      rw [if_pos rfl, zip_self_filter_ne]
      show (100 : ℚ) * (1 - 0 / (bv.length : ℚ)) = 100
      rw [zero_div, sub_zero, mul_one]

/-- When the first digest is not on the bit-vector fast path, the
`Exact` pair similarity is the equality test. -/
theorem pairSimilarity_exact_of_not_binary (hashStrings : List String) (i j : ℕ)
    (hni : binaryBitVecOf (hashStrings.getD i "") = none) :
    pairSimilarity hashStrings .exact i j =
      if hashStrings.getD i "" = hashStrings.getD j "" then 100 else 0 := by
  unfold pairSimilarity
  dsimp only
  rw [hni]
  cases hbv : binaryBitVecOf (hashStrings.getD j "") with
  | none => rfl
  | some bv => rfl

theorem hashStrings_getD (hashes : List HashResult) (i : ℕ) (hi : i < hashes.length) :
    (hashes.map (fun h => h.hash)).getD i "" = (hashes.getD i default).hash := by
  rw [List.getD_eq_getElem?_getD, List.getElem?_map, List.getElem?_eq_getElem hi,
    List.getD_eq_getElem?_getD, List.getElem?_eq_getElem hi]
  rfl

theorem getD_mem_of_lt (hashes : List HashResult) (i : ℕ) (hi : i < hashes.length) :
    hashes.getD i default ∈ hashes := by
  rw [List.getD_eq_getElem?_getD, List.getElem?_eq_getElem hi]
  exact List.getElem_mem hi

/-- Equal nonempty digests of distinct surviving images form a verified
pair for `Exact` whenever the dataset is within bucket capacity. -/
theorem exact_verified_complete (hashes : List HashResult) (threshold : ℚ)
    (hθ : threshold ≤ 100) (hn : hashes.length ≤ 2000) (i j : ℕ)
    (hi : i < hashes.length) (hj : j < hashes.length) (hij : i < j)
    (hne : (hashes.getD j default).hash ≠ "")
    (heq : (hashes.getD i default).hash = (hashes.getD j default).hash) :
    (i, j) ∈ verifiedPairs hashes .exact threshold := by
  unfold verifiedPairs
  rw [List.mem_filter]
  have heq' : (hashes.map (fun h => h.hash)).getD i "" =
      (hashes.map (fun h => h.hash)).getD j "" := by
    rw [hashStrings_getD hashes i hi, hashStrings_getD hashes j hj]
    exact heq
  constructor
  · apply exact_candidate_complete _ i j (by rwa [List.length_map])
      (by rwa [List.length_map]) (by rwa [List.length_map]) hij _ heq'
    rw [hashStrings_getD hashes j hj]
    exact hne
  · rw [decide_eq_true_eq]
    rw [pairSimilarity_exact_self _ i j heq']
    exact hθ

/-- A verified `Exact` edge joins equal digests when the bit-vector fast
path is unavailable and the threshold is positive. -/
theorem exact_edge_digest_eq (hashes : List HashResult) (threshold : ℚ)
    (hθ : 0 < threshold)
    (hnb : ∀ hr ∈ hashes, binaryBitVecOf hr.hash = none) (i j : ℕ)
    (hedge : verifiedEdge hashes .exact threshold i j) :
    (hashes.getD i default).hash = (hashes.getD j default).hash := by
  have key : ∀ a b : ℕ, (a, b) ∈ verifiedPairs hashes .exact threshold →
      (hashes.getD a default).hash = (hashes.getD b default).hash := by
    intro a b hp
    obtain ⟨ha, hb⟩ := verifiedPairs_range hashes .exact threshold (a, b) hp
    have hthr := verifiedPairs_threshold hashes .exact threshold (a, b) hp
    have hna : binaryBitVecOf ((hashes.map (fun h => h.hash)).getD a "") = none := by
      rw [hashStrings_getD hashes a ha]
      exact hnb _ (getD_mem_of_lt hashes a ha)
    rw [pairSimilarity_exact_of_not_binary _ a b hna] at hthr
    by_cases hcase : (hashes.map (fun h => h.hash)).getD a "" =
        (hashes.map (fun h => h.hash)).getD b ""
    · rwa [hashStrings_getD hashes a ha, hashStrings_getD hashes b hb] at hcase
    · rw [if_neg hcase] at hthr
      exact absurd hthr (by exact absurd hθ (by intro h; linarith))
  rcases hedge with hp | hp
  · exact key i j hp
  · exact (key j i hp).symm

/-- Connected `Exact` indices have equal digests. -/
theorem exact_conn_digest_eq (hashes : List HashResult) (threshold : ℚ)
    (hθ : 0 < threshold)
    (hnb : ∀ hr ∈ hashes, binaryBitVecOf hr.hash = none) (i j : ℕ)
    (hconn : Relation.EqvGen (verifiedEdge hashes .exact threshold) i j) :
    (hashes.getD i default).hash = (hashes.getD j default).hash := by
  induction hconn with
  | rel u v huv => exact exact_edge_digest_eq hashes threshold hθ hnb u v huv
  | refl u => rfl
  | symm u v _ ih => exact ih.symm
  | trans u v w _ _ ih1 ih2 => exact ih1.trans ih2

/-- **C2** (amended): for `Exact` with a positive threshold at most 100,
a dataset within the LSH bucket capacity, and nonempty digests off the
binary fast path, two distinct surviving images lie in a common
returned group exactly when their digests are equal. -/
theorem exact_same_group_iff_equal_digest
    (md : String → ℕ × String × String) (paths : List String)
    (outcomes : List (Except String HashResult)) (threshold : ℚ)
    (gs : List DuplicateGroup) (hashes : List HashResult) (i j : ℕ)
    (hθ0 : 0 < threshold) (hθ1 : threshold ≤ 100)
    (hok : detect_duplicates md paths outcomes .exact threshold = .ok gs)
    (hch : compute_image_hashes outcomes = .ok hashes)
    (hpo : paths.length = outcomes.length)
    (hn : hashes.length ≤ 2000)
    (hnb : ∀ hr ∈ hashes, binaryBitVecOf hr.hash = none)
    (hne : ∀ hr ∈ hashes, hr.hash ≠ "")
    (hi : i < hashes.length) (hj : j < hashes.length) (hij : i ≠ j) :
    (∃ g ∈ gs, mkImageInfo md paths hashes i ∈ g.images ∧
      mkImageInfo md paths hashes j ∈ g.images) ↔
      (hashes.getD i default).hash = (hashes.getD j default).hash := by
  cases hpe : paths.isEmpty with
  | true =>
      rw [List.isEmpty_iff] at hpe
      have hplen : outcomes.length = 0 := by
        rw [← hpo, hpe]
        rfl
      have houtnil : outcomes = [] := List.eq_nil_of_length_eq_zero hplen
      subst houtnil
      unfold compute_image_hashes at hch
      rw [if_pos] at hch
      · injection hch with h
        rw [← h] at hi
        simp at hi
      · rfl
  | false =>
      obtain ⟨hashes, groups, hch', hfg, hsort⟩ :=
        detect_unfold md paths outcomes .exact threshold gs hok hpe
      rw [hch] at hch'
      injection hch' with hh
      subst hh
      constructor
      · rintro ⟨g, hg, hgi, hgj⟩
        have hgmem : g ∈ groups := by
          rw [hsort] at hg
          exact (List.perm_insertionSort groupSizeGe groups).mem_iff.mp hg
        obtain ⟨S, himg, -, -, -, hSconn, -⟩ :=
          find_groups_mem md paths hashes .exact threshold groups g hfg hgmem
        rw [himg, List.mem_map] at hgi hgj
        obtain ⟨iS, hiS, hieq⟩ := hgi
        obtain ⟨jS, hjS, hjeq⟩ := hgj
        have hconn := hSconn iS hiS jS hjS
        have hdig := exact_conn_digest_eq hashes threshold hθ0 hnb iS jS
          ((eqvGen_verifiedEdge hashes .exact threshold iS jS).mpr hconn)
        have h1 : (hashes.getD iS default).hash = (hashes.getD i default).hash :=
          congrArg ImageInfo.hash hieq
        have h2 : (hashes.getD jS default).hash = (hashes.getD j default).hash :=
          congrArg ImageInfo.hash hjeq
        exact h1.symm.trans (hdig.trans h2)
      · intro hdig
        have hgg : ∀ g ∈ groups, g ∈ gs := by
          intro g hg
          rw [hsort]
          exact (List.perm_insertionSort groupSizeGe groups).mem_iff.mpr hg
        rcases Nat.lt_or_ge i j with hlt | hge
        · have hp := exact_verified_complete hashes threshold hθ1 hn i j hi hj hlt
            (hne _ (getD_mem_of_lt hashes j hj)) hdig
          obtain ⟨g, hg, hgi, hgj⟩ := find_groups_complete md paths hashes .exact
            threshold groups i j hfg hi hj hij (Relation.EqvGen.rel i j hp)
          exact ⟨g, hgg g hg, hgi, hgj⟩
        · have hlt : j < i := by omega
          have hp := exact_verified_complete hashes threshold hθ1 hn j i hj hi hlt
            (hne _ (getD_mem_of_lt hashes i hi)) hdig.symm
          obtain ⟨g, hg, hgj, hgi⟩ := find_groups_complete md paths hashes .exact
            threshold groups j i hfg hj hi (by omega) (Relation.EqvGen.rel j i hp)
          exact ⟨g, hgg g hg, hgi, hgj⟩

theorem detect_groups_are_components_witness :
    detect_duplicates mdZero pathsC3 outcomesC3 .average 90 = .ok [gC3] ∧
    (∃ (hashes : List HashResult) (S : List ℕ),
      compute_image_hashes outcomesC3 = .ok hashes ∧
      gC3.images = S.map (mkImageInfo mdZero pathsC3 hashes) ∧
      gC3.similarityThreshold = 90 ∧
      2 ≤ gC3.images.length ∧
      (∀ i ∈ S, i < hashes.length) ∧
      (∀ i ∈ S, ∀ j ∈ S, Relation.EqvGen (verifiedEdge hashes .average 90) i j) ∧
      (∀ i ∈ S, ∀ j, j < hashes.length →
        Relation.EqvGen (verifiedEdge hashes .average 90) i j → j ∈ S) ∧
      ∀ p ∈ verifiedPairs hashes .average 90,
        90 ≤ pairSimilarity (hashes.map (fun h => h.hash)) .average p.1 p.2) := by
  have hok : detect_duplicates mdZero pathsC3 outcomesC3 .average 90 = .ok [gC3] := by
    rfl
  exact ⟨hok, detect_groups_are_components mdZero pathsC3 outcomesC3 .average 90
    [gC3] gC3 hok (List.mem_singleton_self gC3)⟩

theorem detect_duplicates_sorted_by_size_witness :
    detect_duplicates mdZero pathsC9 outcomesC9 .average 90 = .ok gsC9 ∧
    0 + 1 < gsC9.length ∧
    (gsC9.get ⟨0 + 1, by decide⟩).images.length ≤
      (gsC9.get ⟨0, by decide⟩).images.length := by
  have hok : detect_duplicates mdZero pathsC9 outcomesC9 .average 90 = .ok gsC9 := by
    rfl
  have hk : 0 + 1 < gsC9.length := by decide
  exact ⟨hok, hk, detect_duplicates_sorted_by_size mdZero pathsC9 outcomesC9
    .average 90 gsC9 hok 0 hk⟩

set_option maxRecDepth 40000 in
theorem exact_same_group_iff_equal_digest_witness :
    (detect_duplicates mdZero pathsC2 outcomesC2 .exact 100 = .ok gsC2 ∧
     compute_image_hashes outcomesC2 = .ok hashesC2 ∧
     (0 : ℚ) < 100 ∧ hashesC2.length ≤ 2000) ∧
    ((∃ g ∈ gsC2, mkImageInfo mdZero pathsC2 hashesC2 0 ∈ g.images ∧
       mkImageInfo mdZero pathsC2 hashesC2 1 ∈ g.images) ↔
      (hashesC2.getD 0 default).hash = (hashesC2.getD 1 default).hash) := by
  have hok : detect_duplicates mdZero pathsC2 outcomesC2 .exact 100 = .ok gsC2 := by
    rfl
  have hch : compute_image_hashes outcomesC2 = .ok hashesC2 := by rfl
  refine ⟨⟨hok, hch, by norm_num, by decide⟩, ?_⟩
  exact exact_same_group_iff_equal_digest mdZero pathsC2 outcomesC2 100 gsC2
    hashesC2 0 1 (by norm_num) (by norm_num) hok hch rfl (by decide)
    (by decide) (by decide) (by decide) (by decide) (by decide)

set_option maxRecDepth 40000 in
/-- **C2** (counterexample to the original claim): at threshold 0 —
inside the claimed range [0,100] — two images whose distinct digests
share a 31-polynomial bucket key are returned in one duplicate group,
so same-group membership does not imply equal digests. -/
theorem exact_group_with_distinct_digests :
    (0 : ℚ) ≤ 0 ∧ (0 : ℚ) ≤ 100 ∧
    hColl1 ≠ hColl2 ∧
    hash_to_u64 hColl1 = hash_to_u64 hColl2 ∧
    detect_duplicates mdZero pathsColl outcomesColl .exact 0 = .ok gsColl ∧
    ∃ g ∈ gsColl, mkImageInfo mdZero pathsColl hashesColl 0 ∈ g.images ∧
      mkImageInfo mdZero pathsColl hashesColl 1 ∈ g.images ∧
      (hashesColl.getD 0 default).hash ≠ (hashesColl.getD 1 default).hash := by
  refine ⟨le_refl 0, by norm_num, by decide, by decide, by rfl,
    ⟨[mkImageInfo mdZero pathsColl hashesColl 0,
      mkImageInfo mdZero pathsColl hashesColl 1], 0⟩,
    List.mem_singleton_self _, ?_, ?_, by decide⟩
  · exact List.mem_cons_self _ _
  · exact List.mem_cons_of_mem _ (List.mem_singleton_self _)
